import Mathlib

/-
Verification of the client-side local folder filesystem (LFFS) of
parsec-cloud, as implemented in `parsec/core/fs/local_folder_fs.py` and
`parsec/core/types/local_manifests.py`.

Shallow embedding conventions:
* Timestamps (`pendulum.now()`) are modelled by a `now : Nat` argument given
  to every operation; all `now()` calls inside one operation yield that value.
* `ManifestAccess()` allocates a fresh UUID; the embedding allocates fresh
  ids from a counter `nextId` carried in the state.
* The in-memory `_manifests_cache` and the `LocalDB` blob store are modelled
  as one merged map `store : List (Nat × Manifest)` (most recent write
  first).  This is value-faithful because `set_manifest` writes through to
  both, and a cache read only replicates the (deserialised) LocalDB content
  into the cache, which leaves the merged map unchanged.  Consequently the
  serialiser round-trip (`local_manifest_serializer.dumps`/`loads`) is the
  identity here and manifests are stored directly.  The merged map is not
  trace-faithful, because `_get_manifest_read_only` emits
  `fs.workspace.loaded` when a cache miss loads a workspace manifest; the
  explicit-cache definitions (`get_manifest_read_only_cached` and the
  functions built on it) model the cache separately and record those
  read-triggered emissions.
* Python exceptions are modelled by `Except FsError`; an `.error` result
  leaves the state unchanged, exactly as an exception raised before any
  `set_manifest` call does in the source (for the explicit-cache semantics
  the source would retain already-performed cache fills and read-triggered
  emissions of a failed operation; the embedding drops them with the error).
* The order of `set_manifest` writes and `event_bus.send` calls inside one
  operation is recorded in an append-only `trace` field.
* The recursion of `_recursive_create_copy_map` follows the access graph
  held in the store, which is not an inductive structure, so it is given a
  fuel argument; `FsError.outOfFuel` is an artifact of the embedding that
  the source (whose recursion is unbounded) never produces.
-/

namespace Parsec

/-- Lexicographic comparison of code points, mirroring how Python compares
`str` values (used by `sorted` in `stat`). -/
def charLt (a b : Char) : Bool := Nat.blt a.toNat b.toNat

/-- Lexicographic order on lists of characters. -/
def lexLe : List Char → List Char → Bool
  | [], _ => true
  | _ :: _, [] => false
  | a :: as, b :: bs => if a = b then lexLe as bs else charLt a b

/-- Order on entry names used by `sorted` in `stat`. -/
def nameLe (a b : String) : Prop := lexLe a.data b.data = true

instance : DecidableRel nameLe := fun a b => instDecidableEqBool _ _

/-- Python `sorted` on a list of names (a stable comparison sort; insertion
sort produces the same, uniquely determined, sorted list). -/
def sortNames (l : List String) : List String := List.insertionSort nameLe l

instance {ε α : Type} [DecidableEq ε] [DecidableEq α] : DecidableEq (Except ε α) := fun x y =>
  match x, y with
  | .ok a, .ok b =>
    match decEq a b with
    | isTrue h => isTrue (by rw [h])
    | isFalse h => isFalse (fun hh => h (Except.ok.inj hh))
  | .error a, .error b =>
    match decEq a b with
    | isTrue h => isTrue (by rw [h])
    | isFalse h => isFalse (fun hh => h (Except.error.inj hh))
  | .ok _, .error _ => isFalse (fun hh => Except.noConfusion hh)
  | .error _, .ok _ => isFalse (fun hh => Except.noConfusion hh)

/-- Access: the handle binding an entry id to its symmetric key.  Only the
entry id is relevant to the folder-fs logic (the cache is keyed by `id`),
so the key is omitted. -/
structure Access where
  id : Nat
deriving DecidableEq

/-- DeviceID, `<user_id>@<device_name>` in the source. -/
structure DeviceID where
  userId : String
  deviceName : String
deriving DecidableEq

inductive ManifestKind where
  | file
  | folder
  | workspace
  | user
deriving DecidableEq

/-- Local manifests.  The four Python classes (`LocalFileManifest`,
`LocalFolderManifest`, `LocalWorkspaceManifest`, `LocalUserManifest`, the
latter two inheriting from the folder one) are modelled as one flat record
with a `kind` tag; fields not belonging to a variant keep their default
value and are never read for that variant. -/
structure Manifest where
  kind : ManifestKind
  author : DeviceID
  baseVersion : Nat
  needSync : Bool
  isPlaceholder : Bool
  created : Nat
  updated : Nat
  size : Nat
  blocks : List Nat
  dirtyBlocks : List Nat
  children : List (String × Access)
  creator : String
  participants : List String
  lastProcessedMessage : Nat
deriving DecidableEq

/-- Modelled from the spec: `is_file_manifest` from `parsec/core/fs/utils.py`
(not under src); the manifest variants are a tagged union and this is the
capability predicate for the file variant. -/
def is_file_manifest (m : Manifest) : Bool :=
  match m.kind with
  | ManifestKind.file => true
  | _ => false

/-- Modelled from the spec: `is_folder_manifest` from
`parsec/core/fs/utils.py` (not under src); true exactly for the plain
folder variant. -/
def is_folder_manifest (m : Manifest) : Bool :=
  match m.kind with
  | ManifestKind.folder => true
  | _ => false

/-- Modelled from the spec: `is_workspace_manifest` from
`parsec/core/fs/utils.py` (not under src). -/
def is_workspace_manifest (m : Manifest) : Bool :=
  match m.kind with
  | ManifestKind.workspace => true
  | _ => false

/-- Modelled from the spec: `is_folderish_manifest` from
`parsec/core/fs/utils.py` (not under src); a Folder, Workspace or User
manifest, i.e. any manifest with a `children` mapping. -/
def is_folderish_manifest (m : Manifest) : Bool :=
  match m.kind with
  | ManifestKind.folder => true
  | ManifestKind.workspace => true
  | ManifestKind.user => true
  | ManifestKind.file => false

/-- Constructor `LocalFileManifest(author, size=…, blocks=…, dirty_blocks=…)`:
`base_version = 0`, `need_sync = True`, `is_placeholder = True`,
`created = updated = now()`. -/
def LocalFileManifest (author : DeviceID) (now : Nat) (size : Nat)
    (blocks dirtyBlocks : List Nat) : Manifest :=
  { kind := ManifestKind.file, author := author, baseVersion := 0, needSync := true,
    isPlaceholder := true, created := now, updated := now, size := size,
    blocks := blocks, dirtyBlocks := dirtyBlocks, children := [], creator := "",
    participants := [], lastProcessedMessage := 0 }

/-- Constructor `LocalFolderManifest(author, children=…)`. -/
def LocalFolderManifest (author : DeviceID) (now : Nat)
    (children : List (String × Access)) : Manifest :=
  { kind := ManifestKind.folder, author := author, baseVersion := 0, needSync := true,
    isPlaceholder := true, created := now, updated := now, size := 0,
    blocks := [], dirtyBlocks := [], children := children, creator := "",
    participants := [], lastProcessedMessage := 0 }

/-- Constructor `LocalWorkspaceManifest(author, children=…)`:
`creator` defaults to `author.user_id` and `participants` to `(creator,)`. -/
def LocalWorkspaceManifest (author : DeviceID) (now : Nat)
    (children : List (String × Access)) : Manifest :=
  { kind := ManifestKind.workspace, author := author, baseVersion := 0, needSync := true,
    isPlaceholder := true, created := now, updated := now, size := 0,
    blocks := [], dirtyBlocks := [], children := children, creator := author.userId,
    participants := [author.userId], lastProcessedMessage := 0 }

/-- Constructor `LocalUserManifest(author)`: empty children,
`last_processed_message = 0`. -/
def LocalUserManifest (author : DeviceID) (now : Nat) : Manifest :=
  { kind := ManifestKind.user, author := author, baseVersion := 0, needSync := true,
    isPlaceholder := true, created := now, updated := now, size := 0,
    blocks := [], dirtyBlocks := [], children := [], creator := "",
    participants := [], lastProcessedMessage := 0 }

/-- Lookup in an association list with string keys (Python `dict` access;
first binding wins, and the evolve functions below never produce duplicate
keys from duplicate-free inputs). -/
def alookup {α : Type} (k : String) : List (String × α) → Option α
  | [] => none
  | (n, v) :: rest => if n = k then some v else alookup k rest

/-- Value taken by an existing child key under `{**children, **data}`. -/
def evolveVal (data : List (String × Option Access)) (p : String × Access) :
    String × Option Access :=
  (p.1, match alookup p.1 data with
        | some v => v
        | none => some p.2)

/-- Whether a `data` key is new, i.e. absent from `children`. -/
def evolveNew (children : List (String × Access)) (p : String × Option Access) : Bool :=
  (alookup p.1 children).isNone

/-- The comprehension filter `if v is not None`. -/
def evolveKeep (p : String × Option Access) : Option (String × Access) :=
  match p.2 with
  | some a => some (p.1, a)
  | none => none

/-- Children update `{k: v for k, v in {**children, **data}.items() if v is not None}`
shared by `evolve_children` and `evolve_children_and_mark_updated`:
existing keys are overridden in place by `data`, new keys of `data` are
appended, and `None` values delete the key.  All call sites in the source
pass `data` dictionaries with pairwise distinct keys. -/
def evolveChildrenMap (children : List (String × Access))
    (data : List (String × Option Access)) : List (String × Access) :=
  (children.map (evolveVal data) ++ data.filter (evolveNew children)).filterMap evolveKeep

/-- Method `evolve_children_and_mark_updated(data)`: updates children and
sets `updated = now()`, `need_sync = True`. -/
def Manifest.evolve_children_and_mark_updated (m : Manifest) (now : Nat)
    (data : List (String × Option Access)) : Manifest :=
  { m with children := evolveChildrenMap m.children data, updated := now, needSync := true }

/-- Method `evolve_children(data)`: updates children only; `updated` and
`need_sync` keep their previous values. -/
def Manifest.evolve_children (m : Manifest)
    (data : List (String × Option Access)) : Manifest :=
  { m with children := evolveChildrenMap m.children data }

/-- Normalised absolute paths (`FsPath`) as lists of entry-name segments;
the root is the empty list. -/
abbrev Path := List String

/-- FsPath `.parent`. -/
def pathParent (p : Path) : Path := p.dropLast

/-- FsPath `.name` (the root has no name; its placeholder value is never
used by the operations, which guard on `is_root` first). -/
def pathName (p : Path) : String := p.getLastD ""

/-- FsPath `.is_root()`. -/
def pathIsRoot (p : Path) : Bool := p.isEmpty

/-- Whether Python `p.relative_to(base)` succeeds, i.e. `base` is an initial
segment of `p`. -/
def relativeToOk (p base : Path) : Bool :=
  match base, p with
  | [], _ => true
  | _ :: _, [] => false
  | a :: as, b :: bs => if a = b then relativeToOk bs as else false

/-- Errors raised by the folder fs (Python exception classes; OSError
subclasses carry the offending path(s)). -/
inductive FsError where
  | fileNotFound (path : Path)
  | notADirectory (path : Path)
  | isADirectory (path : Path)
  | directoryNotEmpty (path : Path)
  | fileExists (path : Path)
  | permissionDenied (paths : List Path)
  | invalidArgument (src dst : Path)
  | keyError (name : String)
  | manifestLocalMiss (access : Access)
  | multiManifestLocalMiss (accesses : List Access)
  | outOfFuel
deriving DecidableEq

/-- State writes and event-bus emissions, in program order.  A
`set_manifest` call (write-through to LocalDB and cache) is one
`writeManifest` action; `fs.entry.updated` and `fs.workspace.loaded`
emissions record the access id they carry. -/
inductive Action where
  | writeManifest (id : Nat)
  | entryUpdated (id : Nat)
  | workspaceLoaded (id : Nat)
deriving DecidableEq

/-- State of a `LocalFolderFS` instance: the local author and root access
fixed at construction, the merged manifest store, the fresh-id counter and
the write/event trace. -/
structure FsState where
  localAuthor : DeviceID
  rootAccess : Access
  store : List (Nat × Manifest)
  nextId : Nat
  trace : List Action
deriving DecidableEq

/-- Store lookup by entry id (most recent write first). -/
def sget : List (Nat × Manifest) → Nat → Option Manifest
  | [], _ => none
  | (k, m) :: rest, id => if k = id then some m else sget rest id

def FsState.lookupStore (s : FsState) (id : Nat) : Option Manifest := sget s.store id

/-- Method `set_manifest(access, manifest)`: write-through to LocalDB and
in-memory cache. -/
def setManifest (s : FsState) (a : Access) (m : Manifest) : FsState :=
  { s with store := (a.id, m) :: s.store, trace := s.trace ++ [Action.writeManifest a.id] }

/-- Event emission `event_bus.send("fs.entry.updated", id=access.id)`. -/
def sendEntryUpdated (s : FsState) (a : Access) : FsState :=
  { s with trace := s.trace ++ [Action.entryUpdated a.id] }

/-- Event emission `event_bus.send("fs.workspace.loaded", …, id=access.id)`. -/
def sendWorkspaceLoaded (s : FsState) (a : Access) : FsState :=
  { s with trace := s.trace ++ [Action.workspaceLoaded a.id] }

/-- Method `_get_manifest_read_only(access)`: cache, then LocalDB (merged
here into one store); on a miss for the root access a fresh v0
`LocalUserManifest` authored by the local device is synthesised, any other
miss raises `FSManifestLocalMiss(access)`.  This merged view drops the
`fs.workspace.loaded` emission performed on a cache-miss load of a
workspace manifest (`local_folder_fs.py` lines 100-104); the emission is
modelled by `get_manifest_read_only_cached` below, which carries the
in-memory cache explicitly, and the two agree on the returned value. -/
def get_manifest_read_only (s : FsState) (now : Nat) (a : Access) : Except FsError Manifest :=
  match sget s.store a.id with
  | some m => .ok m
  | none =>
    if a = s.rootAccess then .ok (LocalUserManifest s.localAuthor now)
    else .error (.manifestLocalMiss a)

/-- Hop loop of `_retrieve_entry_read_only`: `sofar` is the already-walked
path (for error messages), `m` the manifest walked to so far. -/
def walkHops (s : FsState) (now : Nat) : Path → Manifest → List String → String →
    Except FsError (Access × Manifest)
  | sofar, m, [], destName =>
    match alookup destName m.children with
    | none => .error (.fileNotFound (sofar ++ [destName]))
    | some a =>
      match get_manifest_read_only s now a with
      | .error e => .error e
      | .ok cm => .ok (a, cm)
  | sofar, m, hop :: rest, destName =>
    match alookup hop m.children with
    | none => .error (.fileNotFound (sofar ++ [hop]))
    | some a =>
      match get_manifest_read_only s now a with
      | .error e => .error e
      | .ok hm =>
        if is_folderish_manifest hm then walkHops s now (sofar ++ [hop]) hm rest destName
        else .error (.notADirectory (sofar ++ [hop]))

/-- Method `_retrieve_entry_read_only(path)` (and `_retrieve_entry`, which
just delegates to it): walk from the root access. -/
def retrieve_entry_read_only (s : FsState) (now : Nat) (path : Path) :
    Except FsError (Access × Manifest) :=
  match get_manifest_read_only s now s.rootAccess with
  | .error e => .error e
  | .ok rootManifest =>
    match path with
    | [] => .ok (s.rootAccess, rootManifest)
    | _ => walkHops s now [] rootManifest path.dropLast (pathName path)

/-- Method `get_user_manifest()`: cannot fail, because a root-access read
always succeeds (the `.error` branch is unreachable and returns the same
synthesised manifest). -/
def get_user_manifest (s : FsState) (now : Nat) : Manifest :=
  match get_manifest_read_only s now s.rootAccess with
  | .ok m => m
  | .error _ => LocalUserManifest s.localAuthor now

/-- Method `get_access(path)`. -/
def get_access (s : FsState) (now : Nat) (path : Path) : Except FsError Access :=
  match retrieve_entry_read_only s now path with
  | .error e => .error e
  | .ok (a, _) => .ok a

/-- Method `_get_manifest_read_only(access)` with the in-memory manifest
cache (`_manifests_cache`, keyed by entry id) modelled explicitly: a cache
hit returns the cached manifest and has no effect; a cache miss loads from
the LocalDB (`store`), fills the cache and — `local_folder_fs.py` lines
100-104 — emits `fs.workspace.loaded` if the loaded manifest is a
workspace manifest; a LocalDB miss on the root access synthesises a fresh
v0 user manifest (cached, and never a workspace manifest).  The source's
emission also runs a brute-force `get_entry_path` search for the event's
path, which can itself cache-miss-load sibling workspace manifests and
emit for them as well; the embedding records the emission for the loaded
access itself (any omitted sibling emissions are further read-triggered
events at the same program point).  Returns the manifest, the updated
cache and the emitted events. -/
def get_manifest_read_only_cached (s : FsState) (now : Nat)
    (cache : List (Nat × Manifest)) (a : Access) :
    Except FsError (Manifest × List (Nat × Manifest) × List Action) :=
  match sget cache a.id with
  | some m => .ok (m, cache, [])
  | none =>
    match sget s.store a.id with
    | some m =>
      .ok (m, (a.id, m) :: cache,
        if is_workspace_manifest m then [Action.workspaceLoaded a.id] else [])
    | none =>
      if a = s.rootAccess then
        .ok (LocalUserManifest s.localAuthor now,
          (a.id, LocalUserManifest s.localAuthor now) :: cache,
          if is_workspace_manifest (LocalUserManifest s.localAuthor now) then
            [Action.workspaceLoaded a.id]
          else [])
      else .error (.manifestLocalMiss a)

/-- Hop loop of `_retrieve_entry_read_only` over the explicit-cache read
semantics: the loop of `walkHops`, threading the cache and accumulating
the `fs.workspace.loaded` emissions of the cache-miss loads in program
order (`evs`). -/
def walkHopsCached (s : FsState) (now : Nat) :
    List (Nat × Manifest) → List Action → Path → Manifest → List String → String →
    Except FsError (Access × Manifest × List (Nat × Manifest) × List Action)
  | cache, evs, sofar, m, [], destName =>
    match alookup destName m.children with
    | none => .error (.fileNotFound (sofar ++ [destName]))
    | some a =>
      match get_manifest_read_only_cached s now cache a with
      | .error e => .error e
      | .ok (cm, cache1, evs1) => .ok (a, cm, cache1, evs ++ evs1)
  | cache, evs, sofar, m, hop :: rest, destName =>
    match alookup hop m.children with
    | none => .error (.fileNotFound (sofar ++ [hop]))
    | some a =>
      match get_manifest_read_only_cached s now cache a with
      | .error e => .error e
      | .ok (hm, cache1, evs1) =>
        if is_folderish_manifest hm then
          walkHopsCached s now cache1 (evs ++ evs1) (sofar ++ [hop]) hm rest destName
        else .error (.notADirectory (sofar ++ [hop]))

/-- Method `_retrieve_entry_read_only(path)` over the explicit-cache read
semantics: the walk of `retrieve_entry_read_only`, also returning the
updated cache and the `fs.workspace.loaded` events emitted by the reads. -/
def retrieve_entry_read_only_cached (s : FsState) (now : Nat)
    (cache : List (Nat × Manifest)) (path : Path) :
    Except FsError (Access × Manifest × List (Nat × Manifest) × List Action) :=
  match get_manifest_read_only_cached s now cache s.rootAccess with
  | .error e => .error e
  | .ok (rootManifest, cache1, evs1) =>
    match path with
    | [] => .ok (s.rootAccess, rootManifest, cache1, evs1)
    | _ => walkHopsCached s now cache1 evs1 [] rootManifest path.dropLast (pathName path)

/-- Method `touch(path)` over the explicit-cache read semantics: identical
to `touch`, except that path resolution threads the in-memory cache and
appends its read-triggered `fs.workspace.loaded` emissions to the trace —
in program order, before any write of the operation — and each
`set_manifest` also fills the cache.  Returns the new state and cache. -/
def touch_cached (s : FsState) (now : Nat) (cache : List (Nat × Manifest))
    (path : Path) : Except FsError (FsState × List (Nat × Manifest)) :=
  if pathIsRoot path then .error (.fileExists path)
  else if pathIsRoot (pathParent path) then .error (.permissionDenied [path])
  else
    match retrieve_entry_read_only_cached s now cache (pathParent path) with
    | .error e => .error e
    | .ok (access, manifest, cache1, evs) =>
      if is_folderish_manifest manifest = false then .error (.notADirectory (pathParent path))
      else if (alookup (pathName path) manifest.children).isSome then .error (.fileExists path)
      else
        let childAccess : Access := ⟨s.nextId⟩
        let s0 : FsState := { s with nextId := s.nextId + 1, trace := s.trace ++ evs }
        let childManifest := LocalFileManifest s.localAuthor now 0 [] []
        let manifest1 := manifest.evolve_children_and_mark_updated now
          [(pathName path, some childAccess)]
        let s2 := setManifest s0 access manifest1
        let s3 := setManifest s2 childAccess childManifest
        let cache2 := (childAccess.id, childManifest) :: (access.id, manifest1) :: cache1
        let s4 := sendEntryUpdated s3 access
        .ok (sendEntryUpdated s4 childAccess, cache2)

/-- Snapshot returned by `stat`; the source returns a dict whose keys depend
on the variant, modelled as one record where keys absent for a variant hold
their default. -/
structure StatResult where
  type : String
  isFolder : Bool
  created : Nat
  updated : Nat
  baseVersion : Nat
  isPlaceholder : Bool
  needSync : Bool
  size : Nat
  children : List String
  creator : String
  participants : List String
deriving DecidableEq

/-- Method `stat(path)`. -/
def stat (s : FsState) (now : Nat) (path : Path) : Except FsError StatResult :=
  match retrieve_entry_read_only s now path with
  | .error e => .error e
  | .ok (_, m) =>
    if is_file_manifest m then
      .ok { type := "file", isFolder := false, created := m.created, updated := m.updated,
            baseVersion := m.baseVersion, isPlaceholder := m.isPlaceholder,
            needSync := m.needSync, size := m.size, children := [], creator := "",
            participants := [] }
    else if is_workspace_manifest m then
      .ok { type := "workspace", isFolder := true, created := m.created, updated := m.updated,
            baseVersion := m.baseVersion, isPlaceholder := m.isPlaceholder,
            needSync := m.needSync, size := 0,
            children := sortNames (m.children.map Prod.fst), creator := m.creator,
            participants := m.participants }
    else
      .ok { type := if pathIsRoot path then "root" else "folder", isFolder := true,
            created := m.created, updated := m.updated, baseVersion := m.baseVersion,
            isPlaceholder := m.isPlaceholder, needSync := m.needSync, size := 0,
            children := sortNames (m.children.map Prod.fst), creator := "",
            participants := [] }

/-- Method `touch(path)`: create an empty file. -/
def touch (s : FsState) (now : Nat) (path : Path) : Except FsError FsState :=
  if pathIsRoot path then .error (.fileExists path)
  else if pathIsRoot (pathParent path) then .error (.permissionDenied [path])
  else
    match retrieve_entry_read_only s now (pathParent path) with
    | .error e => .error e
    | .ok (access, manifest) =>
      if is_folderish_manifest manifest = false then .error (.notADirectory (pathParent path))
      else if (alookup (pathName path) manifest.children).isSome then .error (.fileExists path)
      else
        let childAccess : Access := ⟨s.nextId⟩
        let s1 : FsState := { s with nextId := s.nextId + 1 }
        let childManifest := LocalFileManifest s.localAuthor now 0 [] []
        let manifest1 := manifest.evolve_children_and_mark_updated now
          [(pathName path, some childAccess)]
        let s2 := setManifest s1 access manifest1
        let s3 := setManifest s2 childAccess childManifest
        let s4 := sendEntryUpdated s3 access
        .ok (sendEntryUpdated s4 childAccess)

/-- Method `mkdir(path)`: create an empty folder. -/
def mkdir (s : FsState) (now : Nat) (path : Path) : Except FsError FsState :=
  if pathIsRoot path then .error (.fileExists path)
  else if pathIsRoot (pathParent path) then .error (.permissionDenied [path])
  else
    match retrieve_entry_read_only s now (pathParent path) with
    | .error e => .error e
    | .ok (access, manifest) =>
      if is_folderish_manifest manifest = false then .error (.notADirectory (pathParent path))
      else if (alookup (pathName path) manifest.children).isSome then .error (.fileExists path)
      else
        let childAccess : Access := ⟨s.nextId⟩
        let s1 : FsState := { s with nextId := s.nextId + 1 }
        let childManifest := LocalFolderManifest s.localAuthor now []
        let manifest1 := manifest.evolve_children_and_mark_updated now
          [(pathName path, some childAccess)]
        let s2 := setManifest s1 access manifest1
        let s3 := setManifest s2 childAccess childManifest
        let s4 := sendEntryUpdated s3 access
        .ok (sendEntryUpdated s4 childAccess)

/-- Method `workspace_create(path)`: create a workspace as a direct child of
the root. -/
def workspace_create (s : FsState) (now : Nat) (path : Path) : Except FsError FsState :=
  if pathIsRoot (pathParent path) = false then .error (.permissionDenied [path])
  else
    let rootManifest := get_user_manifest s now
    if (alookup (pathName path) rootManifest.children).isSome then .error (.fileExists path)
    else
      let childAccess : Access := ⟨s.nextId⟩
      let s1 : FsState := { s with nextId := s.nextId + 1 }
      let childManifest := LocalWorkspaceManifest s.localAuthor now []
      let rootManifest1 := rootManifest.evolve_children_and_mark_updated now
        [(pathName path, some childAccess)]
      let s2 := setManifest s1 s.rootAccess rootManifest1
      let s3 := setManifest s2 childAccess childManifest
      let s4 := sendEntryUpdated s3 s.rootAccess
      let s5 := sendEntryUpdated s4 childAccess
      .ok (sendWorkspaceLoaded s5 childAccess)

/-- Method `workspace_rename(src, dst)`: move the workspace access from one
name of the root manifest to another, leaving the workspace manifest
untouched.  The `root_manifest.children[src.name]` subscript raises an
uncaught Python `KeyError` when `src.name` is absent, modelled by
`FsError.keyError`. -/
def workspace_rename (s : FsState) (now : Nat) (src dst : Path) : Except FsError FsState :=
  match retrieve_entry_read_only s now src with
  | .error e => .error e
  | .ok (_, srcManifest) =>
    if is_workspace_manifest srcManifest = false then .error (.permissionDenied [src, dst])
    else if pathIsRoot (pathParent dst) = false then .error (.permissionDenied [src, dst])
    else
      let rootManifest := get_user_manifest s now
      if (alookup (pathName dst) rootManifest.children).isSome then .error (.fileExists dst)
      else
        match alookup (pathName src) rootManifest.children with
        | none => .error (.keyError (pathName src))
        | some wsAccess =>
          let rootManifest1 := rootManifest.evolve_children_and_mark_updated now
            [(pathName dst, some wsAccess), (pathName src, none)]
          let s1 := setManifest s s.rootAccess rootManifest1
          .ok (sendEntryUpdated s1 s.rootAccess)

/-- Expectation argument of `_delete` (`None`, `"file"` or `"folder"`). -/
inductive DeleteExpect where
  | any
  | file
  | folder
deriving DecidableEq

/-- Parent rewrite performed at the end of `_delete`. -/
def deleteWrite (s : FsState) (now : Nat) (path : Path) (parentAccess : Access)
    (parentManifest : Manifest) : FsState :=
  let parentManifest1 := parentManifest.evolve_children_and_mark_updated now
    [(pathName path, none)]
  let s1 := setManifest s parentAccess parentManifest1
  sendEntryUpdated s1 parentAccess

/-- Method `_delete(path, expect)`. -/
def deleteCore (s : FsState) (now : Nat) (path : Path) (expect : DeleteExpect) :
    Except FsError FsState :=
  if pathIsRoot path then .error (.permissionDenied [path])
  else
    match retrieve_entry_read_only s now (pathParent path) with
    | .error e => .error e
    | .ok (parentAccess, parentManifest) =>
      if is_folderish_manifest parentManifest = false then
        .error (.notADirectory (pathParent path))
      else
        match alookup (pathName path) parentManifest.children with
        | none => .error (.fileNotFound path)
        | some itemAccess =>
          match get_manifest_read_only s now itemAccess with
          | .error e => .error e
          | .ok itemManifest =>
            if is_folderish_manifest itemManifest then
              if expect = DeleteExpect.file then .error (.isADirectory path)
              else if itemManifest.children.isEmpty = false then
                .error (.directoryNotEmpty path)
              else .ok (deleteWrite s now path parentAccess parentManifest)
            else if expect = DeleteExpect.folder then .error (.notADirectory path)
            else .ok (deleteWrite s now path parentAccess parentManifest)

/-- Method `delete(path)`. -/
def delete (s : FsState) (now : Nat) (path : Path) : Except FsError FsState :=
  deleteCore s now path DeleteExpect.any

/-- Method `unlink(path)`. -/
def unlink (s : FsState) (now : Nat) (path : Path) : Except FsError FsState :=
  deleteCore s now path DeleteExpect.file

/-- Method `rmdir(path)`. -/
def rmdir (s : FsState) (now : Nat) (path : Path) : Except FsError FsState :=
  deleteCore s now path DeleteExpect.folder

mutual
/-- Copy map built by `_recursive_create_copy_map`: the access and manifest
of a node together with the copy maps of its children (absent for file
manifests).  The children are a mutually inductive list so that the copy
phase is structurally recursive. -/
inductive CopyMap where
  | node (access : Access) (manifest : Manifest) (children : CopyChildren)
inductive CopyChildren where
  | nil
  | cons (name : String) (cm : CopyMap) (rest : CopyChildren)
end

deriving instance DecidableEq for CopyMap, CopyChildren

/-- Sequential accumulation of the per-child outcomes inside
`_recursive_create_copy_map`: a `Sum.inl` child access is one that raised
`FSManifestLocalMiss` and is appended to the misses, a child whose
recursion raised `FSMultiManifestLocalMiss` contributes its misses, a
successful child contributes its copy-map entry, and any other child error
(only the embedding's `outOfFuel`) aborts like an uncaught exception. -/
def combineCopyResults : List (Sum Access (String × Except FsError CopyMap)) →
    Except FsError (CopyChildren × List Access)
  | [] => .ok (CopyChildren.nil, [])
  | Sum.inl ca :: rest =>
    match combineCopyResults rest with
    | .ok (chl, miss) => .ok (chl, ca :: miss)
    | .error e => .error e
  | Sum.inr (name, .ok cm) :: rest =>
    match combineCopyResults rest with
    | .ok (chl, miss) => .ok (CopyChildren.cons name cm chl, miss)
    | .error e => .error e
  | Sum.inr (_, .error (FsError.multiManifestLocalMiss l)) :: rest =>
    match combineCopyResults rest with
    | .ok (chl, miss) => .ok (chl, l ++ miss)
    | .error e => .error e
  | Sum.inr (_, .error e) :: _ => .error e

/-- Presence-check phase `_recursive_create_copy_map(access, manifest)`:
walk the subtree, collecting every missing access into a single
`FSMultiManifestLocalMiss`; the returned copy map lists the children of a
folderish manifest with the same keys in the same order as
`manifest.children`.  The fuel bounds the recursion depth (the source
recursion is unbounded). -/
def recursive_create_copy_map (s : FsState) (now : Nat) :
    Nat → Access → Manifest → Except FsError CopyMap
  | 0, _, _ => .error .outOfFuel
  | fuel + 1, access, manifest =>
    if is_folderish_manifest manifest then
      match combineCopyResults (manifest.children.map (fun (c : String × Access) =>
        match get_manifest_read_only s now c.2 with
        | .error _ => Sum.inl c.2
        | .ok cm => Sum.inr (c.1, recursive_create_copy_map s now fuel c.2 cm))) with
      | .error e => .error e
      | .ok (chl, []) => .ok (CopyMap.node access manifest chl)
      | .ok (_, miss) => .error (.multiManifestLocalMiss miss)
    else .ok (CopyMap.node access manifest CopyChildren.nil)

mutual
/-- Copy phase `_recursive_process_copy_map(copy_map)`: allocate a fresh
access, copy a file manifest verbatim (same `size`, `blocks`,
`dirty_blocks`, new author/version/flags), or rebuild a folderish manifest
bottom-up from the copies of its children, then write the copy through the
cache.  The source iterates `manifest.children.keys()` and subscripts the
copy map; the copy map holds exactly those keys in the same order, so the
embedding iterates it directly. -/
def recursive_process_copy_map (now : Nat) : FsState → CopyMap → Access × FsState
  | s, CopyMap.node _ manifest children =>
    let cpyAccess : Access := ⟨s.nextId⟩
    let s1 : FsState := { s with nextId := s.nextId + 1 }
    if is_file_manifest manifest then
      let cpyManifest := LocalFileManifest s.localAuthor now manifest.size manifest.blocks
        manifest.dirtyBlocks
      (cpyAccess, setManifest s1 cpyAccess cpyManifest)
    else
      let r := recursive_process_children now s1 children
      let cpyManifest :=
        if is_folder_manifest manifest then LocalFolderManifest s.localAuthor now r.1
        else LocalWorkspaceManifest s.localAuthor now r.1
      (cpyAccess, setManifest r.2 cpyAccess cpyManifest)
def recursive_process_children (now : Nat) : FsState → CopyChildren →
    List (String × Access) × FsState
  | s, CopyChildren.nil => ([], s)
  | s, CopyChildren.cons name cm rest =>
    let r1 := recursive_process_copy_map now s cm
    let r2 := recursive_process_children now r1.2 rest
    ((name, r1.1) :: r2.1, r2.2)
end

/-- Method `_recursive_manifest_copy(access, manifest)`: the presence check
phase followed, only on success, by the copy phase. -/
def recursive_manifest_copy (s : FsState) (now : Nat) (fuel : Nat) (access : Access)
    (manifest : Manifest) : Except FsError (Access × FsState) :=
  match recursive_create_copy_map s now fuel access manifest with
  | .error e => .error e
  | .ok copyMap => .ok (recursive_process_copy_map now s copyMap)

/-- Conflict check of `_copy` against an existing destination entry. -/
def copyCheckConflict (s : FsState) (now : Nat) (dst : Path) (srcManifest : Manifest)
    (existing : Option Access) : Except FsError Unit :=
  match existing with
  | none => .ok ()
  | some eda =>
    match get_manifest_read_only s now eda with
    | .error e => .error e
    | .ok edm =>
      if is_folderish_manifest srcManifest then
        if is_file_manifest edm then .error (.notADirectory dst)
        else if edm.children.isEmpty = false then .error (.directoryNotEmpty dst)
        else .ok ()
      else
        if is_folderish_manifest edm then .error (.isADirectory dst)
        else .ok ()

/-- Method `_copy(src, dst, delete_src)`. -/
def copyCore (fuel : Nat) (s : FsState) (now : Nat) (src dst : Path) (deleteSrc : Bool) :
    Except FsError FsState :=
  let parentSrc := pathParent src
  let parentDst := pathParent dst
  if pathIsRoot src then
    match retrieve_entry_read_only s now parentDst with
    | .error e => .error e
    | .ok (_, parentDstManifest) =>
      if is_folderish_manifest parentDstManifest = false then .error (.notADirectory parentDst)
      else .error (.permissionDenied [src, dst])
  else if pathIsRoot dst then
    match retrieve_entry_read_only s now parentSrc with
    | .error e => .error e
    | .ok (_, parentSrcManifest) =>
      if is_folderish_manifest parentSrcManifest = false then .error (.notADirectory parentSrc)
      else .error (.permissionDenied [src, dst])
  else if src = dst then
    match retrieve_entry_read_only s now src with
    | .error e => .error e
    | .ok (_, srcRoManifest) =>
      if is_workspace_manifest srcRoManifest then .error (.permissionDenied [src, dst])
      else .ok s
  else if parentSrc = parentDst then
    match retrieve_entry_read_only s now parentSrc with
    | .error e => .error e
    | .ok (parentAccess, parentManifest) =>
      if is_folderish_manifest parentManifest = false then .error (.notADirectory parentSrc)
      else if relativeToOk dst src then .error (.invalidArgument src dst)
      else
        match alookup (pathName src) parentManifest.children with
        | none => .error (.fileNotFound src)
        | some srcAccess =>
          let existingDstAccess := alookup (pathName dst) parentManifest.children
          match get_manifest_read_only s now srcAccess with
          | .error e => .error e
          | .ok srcManifest =>
            if is_workspace_manifest srcManifest then .error (.permissionDenied [src, dst])
            else
              match copyCheckConflict s now dst srcManifest existingDstAccess with
              | .error e => .error e
              | .ok _ =>
                match recursive_manifest_copy s now fuel srcAccess srcManifest with
                | .error e => .error e
                | .ok (movedAccess, s2) =>
                  let parentManifest1 :=
                    if deleteSrc = false then
                      parentManifest.evolve_children [(pathName dst, some movedAccess)]
                    else
                      parentManifest.evolve_children
                        [(pathName dst, some movedAccess), (pathName src, none)]
                  let s3 := setManifest s2 parentAccess parentManifest1
                  .ok (sendEntryUpdated s3 parentAccess)
  else if pathIsRoot parentDst then .error (.permissionDenied [src, dst])
  else
    match retrieve_entry_read_only s now parentSrc with
    | .error e => .error e
    | .ok (parentSrcAccess, parentSrcManifest) =>
      if is_folderish_manifest parentSrcManifest = false then .error (.notADirectory parentSrc)
      else
        match retrieve_entry_read_only s now parentDst with
        | .error e => .error e
        | .ok (parentDstAccess, parentDstManifest) =>
          if is_folderish_manifest parentDstManifest = false then
            .error (.notADirectory parentDst)
          else if relativeToOk dst src then .error (.invalidArgument src dst)
          else
            match alookup (pathName src) parentSrcManifest.children with
            | none => .error (.fileNotFound src)
            | some srcAccess =>
              let existingDstAccess := alookup (pathName dst) parentDstManifest.children
              match get_manifest_read_only s now srcAccess with
              | .error e => .error e
              | .ok srcManifest =>
                if is_workspace_manifest srcManifest then
                  .error (.permissionDenied [src, dst])
                else
                  match copyCheckConflict s now dst srcManifest existingDstAccess with
                  | .error e => .error e
                  | .ok _ =>
                    match recursive_manifest_copy s now fuel srcAccess srcManifest with
                    | .error e => .error e
                    | .ok (movedAccess, s2) =>
                      let parentDstManifest1 :=
                        parentDstManifest.evolve_children_and_mark_updated now
                          [(pathName dst, some movedAccess)]
                      let s3 := setManifest s2 parentDstAccess parentDstManifest1
                      let s4 := sendEntryUpdated s3 parentDstAccess
                      if deleteSrc then
                        let parentSrcManifest1 :=
                          parentSrcManifest.evolve_children_and_mark_updated now
                            [(pathName src, none)]
                        let s5 := setManifest s4 parentSrcAccess parentSrcManifest1
                        .ok (sendEntryUpdated s5 parentSrcAccess)
                      else .ok s4

/-- Method `move(src, dst)`. -/
def move (fuel : Nat) (s : FsState) (now : Nat) (src dst : Path) : Except FsError FsState :=
  copyCore fuel s now src dst true

/-- Method `copy(src, dst)`. -/
def copy (fuel : Nat) (s : FsState) (now : Nat) (src dst : Path) : Except FsError FsState :=
  copyCore fuel s now src dst false

/-- Children of a manifest all reference entry ids below the fresh-id
counter; holds for every manifest obtainable from a well-formed state. -/
def ChildrenBounded (s : FsState) (m : Manifest) : Prop :=
  ∀ name ca, (name, ca) ∈ m.children → ca.id < s.nextId

/-- Executable well-formedness check for concrete states (see `WfState`). -/
def wfCheck (s : FsState) : Bool :=
  decide (s.rootAccess.id < s.nextId) &&
    s.store.all (fun p =>
      decide (p.1 < s.nextId) &&
        p.2.children.all (fun c => decide (c.2.id < s.nextId)))

/-- Well-formedness of a state: every entry id known to the store (as key or
as a child reference) and the root id lie below the fresh-id counter, so a
freshly allocated access is distinct from every existing one.  This models
the global uniqueness of the UUIDs produced by `ManifestAccess()`. -/
structure WfState (s : FsState) : Prop where
  rootLt : s.rootAccess.id < s.nextId
  storeLt : ∀ id m, sget s.store id = some m → id < s.nextId
  childLt : ∀ id m, sget s.store id = some m → ChildrenBounded s m

/-- Concrete device for the example states. -/
def exAuthor : DeviceID := ⟨"alice", "dev"⟩

/-- Fresh state: empty store, as right after bootstrap. -/
def exEmpty : FsState := ⟨exAuthor, ⟨0⟩, [], 1, []⟩

/-- Synced user manifest whose only child is the workspace `w`. -/
def exRootM : Manifest :=
  ⟨ManifestKind.user, exAuthor, 1, false, false, 0, 0, 0, [], [], [("w", ⟨1⟩)], "", [], 0⟩

/-- Synced workspace manifest `w` containing the file `a`. -/
def exWsM : Manifest :=
  ⟨ManifestKind.workspace, exAuthor, 2, false, false, 0, 0, 0, [], [],
    [("a", ⟨2⟩)], "alice", ["alice"], 0⟩

/-- Synced file manifest for `/w/a`. -/
def exFileM : Manifest :=
  ⟨ManifestKind.file, exAuthor, 1, false, false, 0, 0, 4, [9], [8], [], "", [], 0⟩

/-- State holding `/w/a` with every manifest synced (`need_sync = false`). -/
def exS : FsState := ⟨exAuthor, ⟨0⟩, [(0, exRootM), (1, exWsM), (2, exFileM)], 3, []⟩

/-- Workspace manifest `w` with two folders `d1` and `d2`. -/
def exWs2M : Manifest :=
  ⟨ManifestKind.workspace, exAuthor, 2, false, false, 0, 0, 0, [], [],
    [("d1", ⟨3⟩), ("d2", ⟨4⟩)], "alice", ["alice"], 0⟩

/-- Folder `d1` containing the file `f`. -/
def exD1M : Manifest :=
  ⟨ManifestKind.folder, exAuthor, 1, false, false, 0, 0, 0, [], [], [("f", ⟨2⟩)], "", [], 0⟩

/-- Empty folder `d2`. -/
def exD2M : Manifest :=
  ⟨ManifestKind.folder, exAuthor, 1, false, false, 0, 0, 0, [], [], [], "", [], 0⟩

/-- State holding `/w/d1/f` and `/w/d2`. -/
def exS2 : FsState :=
  ⟨exAuthor, ⟨0⟩, [(0, exRootM), (1, exWs2M), (3, exD1M), (4, exD2M), (2, exFileM)], 5, []⟩

/-- State after `delete("/w/a")` on `exS` (the fallback branch is not
taken: the delete succeeds). -/
def exDel1 : FsState :=
  match delete exS 5 ["w", "a"] with
  | .ok s => s
  | .error _ => exS

/-- Workspace manifest of `exS` after the delete of its child `a`. -/
def exWsMDel : Manifest := exWsM.evolve_children_and_mark_updated 5 [("a", none)]

/-- `exS` with the manifest of the file `/w/a` locally absent: the
workspace child access `⟨2⟩` dangles, as after a partial sync. -/
def exSMiss : FsState := ⟨exAuthor, ⟨0⟩, [(0, exRootM), (1, exWsM)], 3, []⟩

/-- An access of the subtree below a manifest whose own manifest is locally
absent: reached through locally present folderish manifests, exactly the
accesses `_recursive_create_copy_map` can discover and find missing. -/
inductive MissingFrom (s : FsState) (now : Nat) : Manifest → Access → Prop where
  | base {m : Manifest} {name : String} {ca x : Access} :
      is_folderish_manifest m = true → (name, ca) ∈ m.children →
      get_manifest_read_only s now ca = .error (.manifestLocalMiss x) →
      MissingFrom s now m x
  | step {m : Manifest} {name : String} {ca : Access} {cm : Manifest} {x : Access} :
      is_folderish_manifest m = true → (name, ca) ∈ m.children →
      get_manifest_read_only s now ca = .ok cm → MissingFrom s now cm x →
      MissingFrom s now m x

/-- Missing accesses found below one entry of a children list. -/
def ChildMissOf (s : FsState) (now : Nat) (cs : List (String × Access)) (x : Access) :
    Prop :=
  ∃ name ca, (name, ca) ∈ cs ∧
    (get_manifest_read_only s now ca = .error (.manifestLocalMiss x) ∨
      ∃ cm, get_manifest_read_only s now ca = .ok cm ∧ MissingFrom s now cm x)

/-- A file manifest reachable (through locally present folderish manifests)
in the subtree below a manifest: the file manifests the recursive copy
copies. -/
inductive FileReach (s : FsState) (now : Nat) : Manifest → Manifest → Prop where
  | refl {m : Manifest} : is_file_manifest m = true → FileReach s now m m
  | step {m : Manifest} {name : String} {ca : Access} {cm mf : Manifest} :
      is_folderish_manifest m = true → (name, ca) ∈ m.children →
      get_manifest_read_only s now ca = .ok cm → FileReach s now cm mf →
      FileReach s now m mf

mutual
/-- A file-manifest node occurring in a copy map (the nodes the copy phase
turns into fresh file manifests). -/
inductive FileNodeIn : CopyMap → Manifest → Prop where
  | here (a : Access) (m : Manifest) (children : CopyChildren) :
      is_file_manifest m = true → FileNodeIn (CopyMap.node a m children) m
  | there (a : Access) (m0 : Manifest) (children : CopyChildren) (mf : Manifest) :
      is_file_manifest m0 = false → FileChildIn children mf →
      FileNodeIn (CopyMap.node a m0 children) mf
/-- A file-manifest node occurring below one entry of a copy map's children. -/
inductive FileChildIn : CopyChildren → Manifest → Prop where
  | head (name : String) (cm : CopyMap) (rest : CopyChildren) (mf : Manifest) :
      FileNodeIn cm mf → FileChildIn (CopyChildren.cons name cm rest) mf
  | tail (name : String) (cm : CopyMap) (rest : CopyChildren) (mf : Manifest) :
      FileChildIn rest mf → FileChildIn (CopyChildren.cons name cm rest) mf
end

/-- Membership of a named copy map among a copy map's children. -/
inductive ChlMem : CopyChildren → String → CopyMap → Prop where
  | head (name : String) (cm : CopyMap) (rest : CopyChildren) :
      ChlMem (CopyChildren.cons name cm rest) name cm
  | tail (name name0 : String) (cm cm0 : CopyMap) (rest : CopyChildren) :
      ChlMem rest name cm → ChlMem (CopyChildren.cons name0 cm0 rest) name cm

theorem lexLe_iff : ∀ as bs : List Char, (lexLe as bs = true) ↔ as ≤ bs
  | [], bs => by simp [lexLe, List.nil_le]
  | a :: as, [] => by
    simp only [lexLe, Bool.false_eq_true, false_iff]
    intro h
    exact absurd (lt_of_le_of_lt h (List.nil_lt_cons a as)) (lt_irrefl _)
  | a :: as, b :: bs => by
    by_cases hab : a = b
    · subst hab
      show (if a = a then lexLe as bs else charLt a a) = true ↔ _
      rw [if_pos rfl]
      rw [lexLe_iff as bs]
      constructor
      · exact List.cons_le_cons a
      · intro h
        rcases lt_or_le bs as with hlt | hle
        · exfalso
          have hcons : (a :: bs) < (a :: as) := List.Lex.cons hlt
          exact absurd (lt_of_le_of_lt h hcons) (lt_irrefl _)
        · exact hle
    · show (if a = b then lexLe as bs else charLt a b) = true ↔ _
      rw [if_neg hab]
      constructor
      · intro h
        have hlt : a < b := by simpa [charLt, Nat.blt_eq, Char.lt_def] using h
        exact le_of_lt (List.Lex.rel hlt)
      · intro h
        rcases lt_trichotomy a b with hlt | heq | hgt
        · simpa [charLt, Nat.blt_eq, Char.lt_def] using hlt
        · exact absurd heq hab
        · exfalso
          have hcons : (b :: bs) < (a :: as) := List.Lex.rel hgt
          exact absurd (lt_of_le_of_lt h hcons) (lt_irrefl _)

theorem nameLe_iff (a b : String) : nameLe a b ↔ a ≤ b := by
  rw [String.le_iff_toList_le]
  exact lexLe_iff a.data b.data

theorem nameLe_total : ∀ a b : String, nameLe a b ∨ nameLe b a := by
  intro a b
  rcases le_total a b with h | h
  · exact Or.inl ((nameLe_iff a b).mpr h)
  · exact Or.inr ((nameLe_iff b a).mpr h)

theorem nameLe_trans : ∀ a b c : String, nameLe a b → nameLe b c → nameLe a c := by
  intro a b c h1 h2
  exact (nameLe_iff a c).mpr (le_trans ((nameLe_iff a b).mp h1) ((nameLe_iff b c).mp h2))

theorem sortNames_sorted (l : List String) :
    (sortNames l).Pairwise (fun a b => a ≤ b) := by
  have h := @List.sorted_insertionSort String nameLe _ ⟨nameLe_total⟩ ⟨nameLe_trans⟩ l
  exact h.imp (fun hx => (nameLe_iff _ _).mp hx)

theorem sortNames_perm (l : List String) : (sortNames l).Perm l :=
  List.perm_insertionSort nameLe l

theorem alookup_mem {α : Type} {k : String} {v : α} :
    ∀ {l : List (String × α)}, alookup k l = some v → (k, v) ∈ l
  | [], h => by simp [alookup] at h
  | (n, w) :: rest, h => by
    by_cases hk : n = k
    · subst hk
      rw [alookup, if_pos rfl] at h
      injection h with h
      subst h
      exact List.mem_cons_self _ _
    · rw [alookup, if_neg hk] at h
      exact List.mem_cons_of_mem _ (alookup_mem h)

theorem alookup_append {α : Type} (k : String) :
    ∀ xs ys : List (String × α), alookup k (xs ++ ys) =
      match alookup k xs with
      | some v => some v
      | none => alookup k ys
  | [], ys => by simp [alookup]
  | (n, w) :: xs, ys => by
    by_cases hk : n = k
    · subst hk
      simp [alookup, if_pos rfl]
    · rw [List.cons_append, alookup, if_neg hk, alookup, if_neg hk]
      exact alookup_append k xs ys

theorem alookup_not_mem {α : Type} (k : String) :
    ∀ l : List (String × α), k ∉ l.map Prod.fst → alookup k l = none
  | [], _ => rfl
  | (n, w) :: rest, h => by
    rw [List.map_cons, List.mem_cons] at h
    push_neg at h
    rw [alookup, if_neg (fun hh => h.1 hh.symm)]
    exact alookup_not_mem k rest h.2

theorem alookup_filterMap_keep_none (k : String) :
    ∀ data : List (String × Option Access), k ∉ data.map Prod.fst →
      alookup k ((data.filter (evolveNew ch)).filterMap evolveKeep) = none := by
  intro data h
  apply alookup_not_mem
  intro hk
  apply h
  rw [List.mem_map] at hk
  obtain ⟨p, hp, hpk⟩ := hk
  rw [List.mem_filterMap] at hp
  obtain ⟨q, hq, hqk⟩ := hp
  rw [List.mem_filter] at hq
  rw [List.mem_map]
  refine ⟨q, hq.1, ?_⟩
  rw [evolveKeep] at hqk
  cases hv : q.2 with
  | none => rw [hv] at hqk; exact absurd hqk (by simp)
  | some a =>
    rw [hv] at hqk
    injection hqk with hqk
    rw [← hqk] at hpk
    exact hpk

theorem alookup_evolve_mapped (k : String) (data : List (String × Option Access)) :
    ∀ ch : List (String × Access),
      alookup k ((ch.map (evolveVal data)).filterMap evolveKeep) =
        match alookup k data with
        | some (some a) => if (alookup k ch).isSome then some a else none
        | some none => none
        | none => alookup k ch
  | [] => by cases hd : alookup k data with
    | none => simp [alookup]
    | some v => cases v <;> simp [alookup]
  | p :: ch => by
    by_cases hk : p.1 = k
    · cases hd : alookup k data with
      | none =>
        have hstep : evolveVal data p = (p.1, some p.2) := by
          rw [evolveVal, hk, hd]
        rw [List.map_cons, List.filterMap_cons, hstep]
        show alookup k ((p.1, p.2) :: _) = _
        rw [alookup, if_pos hk]
        rw [alookup, if_pos hk]
      | some v =>
        cases v with
        | none =>
          have hstep : evolveVal data p = (p.1, none) := by
            rw [evolveVal, hk, hd]
          rw [List.map_cons, List.filterMap_cons, hstep]
          show alookup k ((ch.map (evolveVal data)).filterMap evolveKeep) = _
          rw [alookup_evolve_mapped k data ch, hd]
        | some a =>
          have hstep : evolveVal data p = (p.1, some a) := by
            rw [evolveVal, hk, hd]
          rw [List.map_cons, List.filterMap_cons, hstep]
          show alookup k ((p.1, a) :: _) = _
          rw [alookup, if_pos hk]
          rw [alookup, if_pos hk]
          simp
    · rw [List.map_cons, List.filterMap_cons]
      have hfst : (evolveVal data p).1 = p.1 := rfl
      have halt : alookup k (p :: ch) = alookup k ch := by rw [alookup, if_neg hk]
      cases hkp : evolveKeep (evolveVal data p) with
      | none =>
        rw [alookup_evolve_mapped k data ch, halt]
      | some x =>
        have hx1 : x.1 = p.1 := by
          rw [evolveKeep] at hkp
          cases hv : (evolveVal data p).2 with
          | none => rw [hv] at hkp; exact absurd hkp (by simp)
          | some a =>
            rw [hv] at hkp
            injection hkp with hkp
            rw [← hkp]
            rfl
        rw [alookup, if_neg (by rw [hx1]; exact hk)]
        rw [alookup_evolve_mapped k data ch, halt]

theorem alookup_evolve_appended (k : String) (ch : List (String × Access)) :
    ∀ data : List (String × Option Access), (data.map Prod.fst).Nodup →
      alookup k ((data.filter (evolveNew ch)).filterMap evolveKeep) =
        match alookup k data with
        | some (some a) => if (alookup k ch).isNone then some a else none
        | some none => none
        | none => none
  | [], _ => by simp [alookup]
  | q :: data, hnd => by
    rw [List.map_cons, List.nodup_cons] at hnd
    by_cases hk : q.1 = k
    · have hnotin : k ∉ data.map Prod.fst := by rw [← hk]; exact hnd.1
      have halt : alookup k (q :: data) = some q.2 := by rw [alookup, if_pos hk]
      rw [halt]
      cases hnew : evolveNew ch q with
      | false =>
        rw [List.filter_cons, hnew]
        simp only [Bool.false_eq_true, if_false]
        have hz := @alookup_filterMap_keep_none ch k data hnotin
        rw [hz]
        have hns : (alookup k ch).isNone = false := by
          rw [evolveNew, hk] at hnew
          cases halk : alookup k ch with
          | none => rw [halk] at hnew; exact absurd hnew (by simp)
          | some _ => rfl
        cases q.2 with
        | none => rfl
        | some a => rw [hns]; simp
      | true =>
        rw [List.filter_cons, hnew]
        simp only [if_true]
        have hns : (alookup k ch).isNone = true := by
          rw [evolveNew, hk] at hnew
          exact hnew
        rw [List.filterMap_cons]
        cases hv : q.2 with
        | none =>
          have hkp : evolveKeep q = none := by rw [evolveKeep, hv]
          rw [hkp]
          have hz := @alookup_filterMap_keep_none ch k data hnotin
          rw [hz]
        | some a =>
          have hkp : evolveKeep q = some (q.1, a) := by rw [evolveKeep, hv]
          rw [hkp]
          rw [alookup, if_pos hk, hns]
          simp
    · have halt : alookup k (q :: data) = alookup k data := by rw [alookup, if_neg hk]
      rw [halt]
      rw [List.filter_cons]
      cases hnew : evolveNew ch q with
      | false =>
        simp only [Bool.false_eq_true, if_false]
        exact alookup_evolve_appended k ch data hnd.2
      | true =>
        simp only [if_true]
        rw [List.filterMap_cons]
        cases hv : q.2 with
        | none =>
          have hkp : evolveKeep q = none := by rw [evolveKeep, hv]
          rw [hkp]
          exact alookup_evolve_appended k ch data hnd.2
        | some a =>
          have hkp : evolveKeep q = some (q.1, a) := by rw [evolveKeep, hv]
          rw [hkp]
          rw [alookup, if_neg hk]
          exact alookup_evolve_appended k ch data hnd.2

/-- Main characterisation of the dict-merge semantics of
`evolve_children` / `evolve_children_and_mark_updated`: the updated key wins,
`None` deletes, everything else is looked up in the old children. -/
theorem alookup_evolve (k : String) (ch : List (String × Access))
    (data : List (String × Option Access)) (hnd : (data.map Prod.fst).Nodup) :
    alookup k (evolveChildrenMap ch data) =
      match alookup k data with
      | some (some a) => some a
      | some none => none
      | none => alookup k ch := by
  rw [evolveChildrenMap, List.filterMap_append, alookup_append,
    alookup_evolve_mapped k data ch, alookup_evolve_appended k ch data hnd]
  cases hd : alookup k data with
  | none => cases alookup k ch <;> simp
  | some v =>
    cases v with
    | none => simp
    | some a =>
      cases halk : alookup k ch with
      | none => simp [halk]
      | some w => simp [halk]

theorem sget_set_self (s : FsState) (a : Access) (m : Manifest) :
    sget (setManifest s a m).store a.id = some m := by
  simp [setManifest, sget]

theorem sget_set_ne (s : FsState) (a : Access) (m : Manifest) (id : Nat) (h : a.id ≠ id) :
    sget (setManifest s a m).store id = sget s.store id := by
  simp [setManifest, sget, h]

theorem sendEntryUpdated_store (s : FsState) (a : Access) :
    (sendEntryUpdated s a).store = s.store := rfl

theorem sendEntryUpdated_nextId (s : FsState) (a : Access) :
    (sendEntryUpdated s a).nextId = s.nextId := rfl

theorem sendWorkspaceLoaded_store (s : FsState) (a : Access) :
    (sendWorkspaceLoaded s a).store = s.store := rfl

theorem setManifest_nextId (s : FsState) (a : Access) (m : Manifest) :
    (setManifest s a m).nextId = s.nextId := rfl

theorem getRO_error_shape (s : FsState) (now : Nat) (a : Access) (e : FsError)
    (h : get_manifest_read_only s now a = .error e) :
    e = .manifestLocalMiss a ∧ sget s.store a.id = none ∧ a ≠ s.rootAccess := by
  unfold get_manifest_read_only at h
  split at h
  · exact absurd h (by simp)
  · rename_i hs
    split at h
    · exact absurd h (by simp)
    · rename_i hr
      injection h with h
      exact ⟨h.symm, hs, hr⟩

theorem getRO_ok_cases (s : FsState) (now : Nat) (a : Access) (m : Manifest)
    (h : get_manifest_read_only s now a = .ok m) :
    sget s.store a.id = some m ∨
      (m = LocalUserManifest s.localAuthor now ∧ a = s.rootAccess ∧ sget s.store a.id = none) := by
  unfold get_manifest_read_only at h
  split at h
  · rename_i mm hs
    injection h with h
    subst h
    exact Or.inl hs
  · rename_i hs
    split at h
    · rename_i hr
      injection h with h
      exact Or.inr ⟨h.symm, hr, hs⟩
    · exact absurd h (by simp)

theorem getRO_root_ok (s : FsState) (now : Nat) :
    get_manifest_read_only s now s.rootAccess = .ok (get_user_manifest s now) := by
  unfold get_user_manifest
  split
  · rename_i m hm
    exact hm
  · rename_i e he
    rcases getRO_error_shape s now s.rootAccess e he with ⟨_, _, hne⟩
    exact absurd rfl hne

theorem getRO_ok_bounded (s : FsState) (now : Nat) (a : Access) (m : Manifest)
    (wf : WfState s) (h : get_manifest_read_only s now a = .ok m) :
    ChildrenBounded s m := by
  rcases getRO_ok_cases s now a m h with hs | ⟨hm, _, _⟩
  · exact wf.childLt a.id m hs
  · intro name ca hmem
    rw [hm] at hmem
    simp [LocalUserManifest] at hmem

theorem walkHops_ok (s : FsState) (now : Nat) (wf : WfState s) :
    ∀ (hops : List String) (sofar : Path) (m : Manifest) (dest : String) (a : Access)
      (mm : Manifest), ChildrenBounded s m →
      walkHops s now sofar m hops dest = .ok (a, mm) →
      a.id < s.nextId ∧ get_manifest_read_only s now a = .ok mm := by
  intro hops
  induction hops with
  | nil =>
    intro sofar m dest a mm hb h
    rw [walkHops] at h
    split at h
    · exact absurd h (by simp)
    · rename_i a0 hl
      split at h
      · exact absurd h (by simp)
      · rename_i cm hg
        injection h with h
        have h1 : a0 = a := congrArg Prod.fst h
        have h2 : cm = mm := congrArg Prod.snd h
        subst h1; subst h2
        exact ⟨hb dest a0 (alookup_mem hl), hg⟩
  | cons hop rest ih =>
    intro sofar m dest a mm hb h
    rw [walkHops] at h
    split at h
    · exact absurd h (by simp)
    · rename_i a0 hl
      split at h
      · exact absurd h (by simp)
      · rename_i hm hg
        split at h
        · exact ih (sofar ++ [hop]) hm dest a mm (getRO_ok_bounded s now a0 hm wf hg) h
        · exact absurd h (by simp)

theorem retrieve_ok_facts (s : FsState) (now : Nat) (p : Path) (a : Access) (m : Manifest)
    (wf : WfState s) (h : retrieve_entry_read_only s now p = .ok (a, m)) :
    a.id < s.nextId ∧ get_manifest_read_only s now a = .ok m := by
  unfold retrieve_entry_read_only at h
  split at h
  · exact absurd h (by simp)
  · rename_i rm hroot
    split at h
    · injection h with h
      have h1 : s.rootAccess = a := congrArg Prod.fst h
      have h2 : rm = m := congrArg Prod.snd h
      subst h1; subst h2
      exact ⟨wf.rootLt, hroot⟩
    · exact walkHops_ok s now wf _ [] rm _ a m
        (getRO_ok_bounded s now s.rootAccess rm wf hroot) h

theorem walkHops_getRO (s : FsState) (now : Nat) :
    ∀ (hops : List String) (sofar : Path) (m : Manifest) (dest : String) (a : Access)
      (mm : Manifest), walkHops s now sofar m hops dest = .ok (a, mm) →
      get_manifest_read_only s now a = .ok mm := by
  intro hops
  induction hops with
  | nil =>
    intro sofar m dest a mm h
    rw [walkHops] at h
    split at h
    · exact absurd h (by simp)
    · rename_i a0 hl
      split at h
      · exact absurd h (by simp)
      · rename_i cm hg
        injection h with h
        have h1 : a0 = a := congrArg Prod.fst h
        have h2 : cm = mm := congrArg Prod.snd h
        subst h1; subst h2
        exact hg
  | cons hop rest ih =>
    intro sofar m dest a mm h
    rw [walkHops] at h
    split at h
    · exact absurd h (by simp)
    · rename_i a0 hl
      split at h
      · exact absurd h (by simp)
      · rename_i hm hg
        split at h
        · exact ih (sofar ++ [hop]) hm dest a mm h
        · exact absurd h (by simp)

theorem retrieve_ok_getRO (s : FsState) (now : Nat) (p : Path) (a : Access) (m : Manifest)
    (h : retrieve_entry_read_only s now p = .ok (a, m)) :
    get_manifest_read_only s now a = .ok m := by
  unfold retrieve_entry_read_only at h
  split at h
  · exact absurd h (by simp)
  · rename_i rm hroot
    split at h
    · injection h with h
      have h1 : s.rootAccess = a := congrArg Prod.fst h
      have h2 : rm = m := congrArg Prod.snd h
      subst h1; subst h2
      exact hroot
    · exact walkHops_getRO s now _ _ _ _ _ _ h

theorem walkHops_nil_ok (s : FsState) (now : Nat) (sofar : Path) (m : Manifest)
    (dest : String) (a : Access) (mm : Manifest)
    (h : walkHops s now sofar m [] dest = .ok (a, mm)) :
    alookup dest m.children = some a := by
  rw [walkHops] at h
  split at h
  · exact absurd h (by simp)
  · rename_i a0 hl
    split at h
    · exact absurd h (by simp)
    · rename_i cm hg
      injection h with h
      have h1 : a0 = a := congrArg Prod.fst h
      subst h1
      exact hl

theorem retrieve_one (s : FsState) (now : Nat) (name : String) (a : Access) (m : Manifest)
    (h : retrieve_entry_read_only s now [name] = .ok (a, m)) :
    alookup name (get_user_manifest s now).children = some a ∧
      get_manifest_read_only s now a = .ok m := by
  have hum := getRO_root_ok s now
  unfold retrieve_entry_read_only at h
  split at h
  · exact absurd h (by simp)
  · rename_i rm hroot
    have hrm : rm = get_user_manifest s now := by
      rw [hroot] at hum
      exact Except.ok.inj hum
    have hwalk : walkHops s now [] rm [] name = .ok (a, m) := h
    have hl := walkHops_nil_ok s now [] rm name a m hwalk
    have hg := walkHops_getRO s now [] [] rm name a m hwalk
    rw [hrm] at hl
    exact ⟨hl, hg⟩

theorem folderish_not_file (m : Manifest) (h : is_folderish_manifest m = true) :
    is_file_manifest m = false := by
  cases hk : m.kind <;> rw [is_file_manifest, hk]
  rw [is_folderish_manifest, hk] at h
  exact absurd h (by simp)

/-- C6: with an empty local blob store and empty cache, `stat("/")` succeeds
with a `root`-typed placeholder snapshot (`need_sync = true`,
`base_version = 0`, no children), because the root-access read synthesises
a fresh v0 `LocalUserManifest` authored by the local device; a miss for any
non-root access instead raises `FSManifestLocalMiss` carrying that
access. -/
theorem c6_lazy_root (s : FsState) (now : Nat) (h : s.store = []) :
    stat s now [] = .ok ⟨"root", true, now, now, 0, true, true, 0, [], "", []⟩ ∧
    get_manifest_read_only s now s.rootAccess = .ok (LocalUserManifest s.localAuthor now) ∧
    (∀ a : Access, a ≠ s.rootAccess →
      get_manifest_read_only s now a = .error (.manifestLocalMiss a)) := by
  have hget : ∀ id : Nat, sget s.store id = none := by rw [h]; intro id; rfl
  have hroot : get_manifest_read_only s now s.rootAccess =
      .ok (LocalUserManifest s.localAuthor now) := by
    rw [get_manifest_read_only, hget, if_pos rfl]
  refine ⟨?_, hroot, ?_⟩
  · rw [stat, retrieve_entry_read_only, hroot]
    simp [is_file_manifest, is_workspace_manifest, LocalUserManifest, pathIsRoot,
      sortNames, StatResult.mk.injEq]
  · intro a ha
    rw [get_manifest_read_only, hget, if_neg ha]

/-- C6 witness: the concrete empty state. -/
theorem c6_lazy_root_witness :
    exEmpty.store = [] ∧
      stat exEmpty 7 [] = .ok ⟨"root", true, 7, 7, 0, true, true, 0, [], "", []⟩ :=
  ⟨rfl, (c6_lazy_root exEmpty 7 rfl).1⟩

/-- C9: for a folderish manifest, the `children` field of the `stat`
snapshot is the list of children names in ascending lexicographic order:
it is sorted with respect to the string order and a permutation of the
(unordered) keys of the children mapping. -/
theorem c9_stat_children_sorted (s : FsState) (now : Nat) (path : Path) (a : Access)
    (m : Manifest) (r : StatResult)
    (hr : retrieve_entry_read_only s now path = .ok (a, m))
    (hf : is_folderish_manifest m = true)
    (hst : stat s now path = .ok r) :
    r.children.Pairwise (fun x y => x ≤ y) ∧ r.children.Perm (m.children.map Prod.fst) := by
  have hnf := folderish_not_file m hf
  simp only [stat, hr, hnf, Bool.false_eq_true, if_false] at hst
  have hch : r.children = sortNames (m.children.map Prod.fst) := by
    cases hw : is_workspace_manifest m with
    | true =>
      simp only [hw, if_true] at hst
      injection hst with hst
      rw [← hst]
    | false =>
      simp only [hw, Bool.false_eq_true, if_false] at hst
      injection hst with hst
      rw [← hst]
  rw [hch]
  exact ⟨sortNames_sorted _, sortNames_perm _⟩

/-- C9 witness: `stat` of the workspace `w` of the concrete state. -/
theorem c9_stat_children_sorted_witness :
    (["a"] : List String).Pairwise (fun x y => x ≤ y) ∧
      (["a"] : List String).Perm (exWsM.children.map Prod.fst) :=
  c9_stat_children_sorted exS 5 ["w"] ⟨1⟩ exWsM
    ⟨"workspace", true, 0, 0, 2, false, false, 0, ["a"], "alice", ["alice"]⟩
    (by decide) (by decide) (by decide)

/-- C10: renaming an existing root-level workspace to its own name fails
with `FileExists` — the destination-name check against the root children
does not exempt the source name — and, the error being raised before any
write, every manifest is left unchanged (an `.error` result carries no
state). -/
theorem c10_workspace_self_rename (s : FsState) (now : Nat) (name : String) (a : Access)
    (m : Manifest)
    (hr : retrieve_entry_read_only s now [name] = .ok (a, m))
    (hws : is_workspace_manifest m = true) :
    workspace_rename s now [name] [name] = .error (.fileExists [name]) := by
  obtain ⟨hlook, hget⟩ := retrieve_one s now name a m hr
  have hname : pathName [name] = name := rfl
  have hparent : pathIsRoot (pathParent [name]) = true := rfl
  simp only [workspace_rename, hr, hws, hparent, hname, hlook, Bool.true_eq_false,
    Option.isSome_some, if_false, if_true]

/-- C10 witness: self-rename of the concrete workspace `w`. -/
theorem c10_workspace_self_rename_witness :
    workspace_rename exS 5 ["w"] ["w"] = .error (.fileExists ["w"]) :=
  c10_workspace_self_rename exS 5 "w" ⟨1⟩ exWsM (by decide) (by decide)

theorem relativeToOk_iff : ∀ base p : Path, relativeToOk p base = true ↔ ∃ t, base ++ t = p
  | [], p => by
    simp only [relativeToOk, true_iff]
    exact ⟨p, rfl⟩
  | a :: as, [] => by
    simp only [relativeToOk, Bool.false_eq_true, false_iff]
    intro ⟨t, ht⟩
    exact absurd ht (by simp)
  | a :: as, b :: bs => by
    show (if a = b then relativeToOk bs as else false) = true ↔ _
    by_cases hab : a = b
    · subst hab
      rw [if_pos rfl, relativeToOk_iff as bs]
      constructor
      · intro ⟨t, ht⟩
        exact ⟨t, by rw [List.cons_append, ht]⟩
      · intro ⟨t, ht⟩
        rw [List.cons_append] at ht
        exact ⟨t, (List.cons.inj ht).2⟩
    · rw [if_neg hab]
      simp only [Bool.false_eq_true, false_iff]
      intro ⟨t, ht⟩
      rw [List.cons_append] at ht
      exact hab (List.cons.inj ht).1

/-- C5 counterexample: `src = /w/x`, `dst = /w/x/y` with `x` absent from the
workspace.  Both paths are non-root and `dst` lies strictly inside `src`,
yet `move` and `copy` fail with `FileNotFoundError` (raised while resolving
`dst`'s parent) instead of the `InvalidArgument` the claim requires for
every such pair. -/
theorem c5_move_into_descendant_counterexample :
    (["w", "x"] : Path) ≠ [] ∧ (["w", "x", "y"] : Path) ≠ [] ∧
    relativeToOk ["w", "x", "y"] ["w", "x"] = true ∧
    (["w", "x"] : Path) ≠ ["w", "x", "y"] ∧
    move 10 exS 5 ["w", "x"] ["w", "x", "y"] = .error (.fileNotFound ["w", "x"]) ∧
    copy 10 exS 5 ["w", "x"] ["w", "x", "y"] = .error (.fileNotFound ["w", "x"]) ∧
    (FsError.fileNotFound ["w", "x"]) ≠ .invalidArgument ["w", "x"] ["w", "x", "y"] := by
  decide

/-- C5 amended: if `src` and `dst` are non-root, `dst` lies strictly inside
`src`, and the walks to both parents succeed and reach folderish manifests,
then `move` and `copy` (any `delete_src`) fail with
`InvalidArgument(src, dst)` and, the error being raised before any write,
leave the tree unchanged; when a parent fails to resolve, the resolution
error is raised instead. -/
theorem c5_move_into_descendant_amended (fuel : Nat) (s : FsState) (now : Nat)
    (src dst : Path) (b : Bool) (psa pda : Access) (psm pdm : Manifest)
    (hs : src ≠ []) (hd : dst ≠ [])
    (hproper : ∃ t, t ≠ [] ∧ src ++ t = dst)
    (hps : retrieve_entry_read_only s now (pathParent src) = .ok (psa, psm))
    (hpsf : is_folderish_manifest psm = true)
    (hpd : retrieve_entry_read_only s now (pathParent dst) = .ok (pda, pdm))
    (hpdf : is_folderish_manifest pdm = true) :
    copyCore fuel s now src dst b = .error (.invalidArgument src dst) := by
  obtain ⟨t, htne, happ⟩ := hproper
  have hlen : src.length < dst.length := by
    rw [← happ, List.length_append]
    have ht : 0 < t.length := List.length_pos.mpr htne
    omega
  have hslen : 1 ≤ src.length := List.length_pos.mpr hs
  have hsd : src ≠ dst := by
    intro he
    rw [he] at hlen
    exact absurd hlen (lt_irrefl _)
  have hppne : pathParent src ≠ pathParent dst := by
    intro he
    have h1 := congrArg List.length he
    rw [pathParent, pathParent, List.length_dropLast, List.length_dropLast] at h1
    omega
  have hpd_root : pathIsRoot (pathParent dst) = false := by
    rw [pathParent, pathIsRoot]
    cases hdl : dst.dropLast with
    | nil =>
      have h1 := congrArg List.length hdl
      rw [List.length_dropLast] at h1
      simp only [List.length_nil] at h1
      omega
    | cons x xs => rfl
  have hroots : pathIsRoot src = false := by
    cases src with
    | nil => exact absurd rfl hs
    | cons x xs => rfl
  have hrootd : pathIsRoot dst = false := by
    cases dst with
    | nil => exact absurd rfl hd
    | cons x xs => rfl
  have hrel : relativeToOk dst src = true := (relativeToOk_iff src dst).mpr ⟨t, happ⟩
  simp only [copyCore, hroots, hrootd, Bool.false_eq_true, if_false, if_neg hsd,
    if_neg hppne, hpd_root, hps, hpsf, hpd, hpdf, hrel, Bool.true_eq_false, if_true]

/-- C5 amended witness: moving the folder `/w/d1` into `/w/d1/x`. -/
theorem c5_move_into_descendant_amended_witness :
    copyCore 10 exS2 5 ["w", "d1"] ["w", "d1", "x"] true =
      .error (.invalidArgument ["w", "d1"] ["w", "d1", "x"]) :=
  c5_move_into_descendant_amended 10 exS2 5 ["w", "d1"] ["w", "d1", "x"] true
    ⟨1⟩ ⟨3⟩ exWs2M exD1M (by decide) (by decide) ⟨["x"], by decide, rfl⟩
    (by decide) (by decide) (by decide) (by decide)

theorem evolve_mark_folderish (m : Manifest) (now : Nat)
    (d : List (String × Option Access)) :
    is_folderish_manifest (m.evolve_children_and_mark_updated now d) =
      is_folderish_manifest m := rfl

/-- C8: when `delete(p)` succeeds, an immediately following `delete(p)` (at
any later clock value, with the parent of `p` still resolving to the same
access) fails with `FileNotFoundError(p)`, raised at the children lookup
before any write — an `.error` result carries no state change, so the tree
is exactly as the first delete left it. -/
theorem c8_idempotent_delete (s s2 : FsState) (now now2 : Nat) (p : Path)
    (pa pa2 : Access) (pm pm2 : Manifest)
    (h1 : delete s now p = .ok s2)
    (hr1 : retrieve_entry_read_only s now (pathParent p) = .ok (pa, pm))
    (hr2 : retrieve_entry_read_only s2 now2 (pathParent p) = .ok (pa2, pm2))
    (hsame : pa2 = pa) :
    delete s2 now2 p = .error (.fileNotFound p) := by
  rw [hsame] at hr2
  unfold delete deleteCore at h1
  by_cases hpr : pathIsRoot p = true
  · rw [if_pos hpr] at h1
    exact absurd h1 (by simp)
  · rw [if_neg hpr, hr1] at h1
    have h1w : (if is_folderish_manifest pm = false then
        (.error (.notADirectory (pathParent p)) : Except FsError FsState)
      else
        match alookup (pathName p) pm.children with
        | none => .error (.fileNotFound p)
        | some itemAccess =>
          match get_manifest_read_only s now itemAccess with
          | .error e => .error e
          | .ok itemManifest =>
            if is_folderish_manifest itemManifest then
              if DeleteExpect.any = DeleteExpect.file then .error (.isADirectory p)
              else if itemManifest.children.isEmpty = false then
                .error (.directoryNotEmpty p)
              else .ok (deleteWrite s now p pa pm)
            else if DeleteExpect.any = DeleteExpect.folder then .error (.notADirectory p)
            else .ok (deleteWrite s now p pa pm)) = .ok s2 := h1
    have hs2 : s2 = deleteWrite s now p pa pm := by
      split at h1w
      · exact absurd h1w (by simp)
      · split at h1w
        · exact absurd h1w (by simp)
        · split at h1w
          · exact absurd h1w (by simp)
          · split at h1w
            · split at h1w
              · exact absurd h1w (by simp)
              · split at h1w
                · exact absurd h1w (by simp)
                · exact (Except.ok.inj h1w).symm
            · split at h1w
              · exact absurd h1w (by simp)
              · exact (Except.ok.inj h1w).symm
    have hfold : is_folderish_manifest pm = true := by
      by_cases hf : is_folderish_manifest pm = true
      · exact hf
      · rw [hs2] at h1
        have hff : is_folderish_manifest pm = false := by
          cases hb : is_folderish_manifest pm
          · rfl
          · exact absurd hb hf
        rw [if_pos hff] at h1w
        exact absurd h1w (by simp)
    have hpm1 : pm2 = pm.evolve_children_and_mark_updated now [(pathName p, none)] := by
      have hg := retrieve_ok_getRO s2 now2 (pathParent p) pa pm2 hr2
      rw [hs2] at hg
      unfold get_manifest_read_only at hg
      rw [deleteWrite] at hg
      have hsg : sget (sendEntryUpdated
          (setManifest s pa (pm.evolve_children_and_mark_updated now [(pathName p, none)]))
          pa).store pa.id =
          some (pm.evolve_children_and_mark_updated now [(pathName p, none)]) := by
        rw [sendEntryUpdated_store]
        exact sget_set_self s pa _
      rw [hsg] at hg
      exact (Except.ok.inj hg).symm
    unfold delete deleteCore
    rw [if_neg hpr, hr2]
    show (if is_folderish_manifest pm2 = false then
        (.error (.notADirectory (pathParent p)) : Except FsError FsState)
      else
        match alookup (pathName p) pm2.children with
        | none => .error (.fileNotFound p)
        | some itemAccess =>
          match get_manifest_read_only s2 now2 itemAccess with
          | .error e => .error e
          | .ok itemManifest =>
            if is_folderish_manifest itemManifest then
              if DeleteExpect.any = DeleteExpect.file then .error (.isADirectory p)
              else if itemManifest.children.isEmpty = false then
                .error (.directoryNotEmpty p)
              else .ok (deleteWrite s2 now2 p pa pm2)
            else if DeleteExpect.any = DeleteExpect.folder then .error (.notADirectory p)
            else .ok (deleteWrite s2 now2 p pa pm2)) = .error (.fileNotFound p)
    have hfold2 : is_folderish_manifest pm2 = true := by
      rw [hpm1, evolve_mark_folderish]
      exact hfold
    rw [hfold2]
    simp only [Bool.true_eq_false, if_false]
    have hnone : alookup (pathName p) pm2.children = none := by
      rw [hpm1]
      show alookup (pathName p)
        (evolveChildrenMap pm.children [(pathName p, none)]) = none
      rw [alookup_evolve _ _ _ (by simp)]
      rw [alookup, if_pos rfl]
    rw [hnone]

/-- C8 witness: deleting `/w/a` twice on the concrete state. -/
theorem c8_idempotent_delete_witness :
    delete exDel1 6 ["w", "a"] = .error (.fileNotFound ["w", "a"]) :=
  c8_idempotent_delete exS exDel1 5 6 ["w", "a"] ⟨1⟩ ⟨1⟩ exWsM exWsMDel
    (by decide) (by decide) (by decide) rfl

theorem touch_ok_shape (s : FsState) (now : Nat) (p : Path) (s2 : FsState)
    (pa : Access) (pm : Manifest)
    (h : touch s now p = .ok s2)
    (hret : retrieve_entry_read_only s now (pathParent p) = .ok (pa, pm)) :
    s2 = sendEntryUpdated (sendEntryUpdated
      (setManifest (setManifest { s with nextId := s.nextId + 1 } pa
        (pm.evolve_children_and_mark_updated now [(pathName p, some ⟨s.nextId⟩)]))
        ⟨s.nextId⟩ (LocalFileManifest s.localAuthor now 0 [] [])) pa) ⟨s.nextId⟩ := by
  unfold touch at h
  by_cases h1 : pathIsRoot p = true
  · rw [if_pos h1] at h
    exact absurd h (by simp)
  · rw [if_neg h1] at h
    by_cases h2 : pathIsRoot (pathParent p) = true
    · rw [if_pos h2] at h
      exact absurd h (by simp)
    · rw [if_neg h2] at h
      split at h
      · exact absurd h (by simp)
      · rename_i pa' pm' heq
        rw [hret] at heq
        injection heq with heq
        have hpa : pa = pa' := congrArg Prod.fst heq
        have hpm : pm = pm' := congrArg Prod.snd heq
        subst hpa; subst hpm
        split at h
        · exact absurd h (by simp)
        · split at h
          · exact absurd h (by simp)
          · exact (Except.ok.inj h).symm

theorem mkdir_ok_shape (s : FsState) (now : Nat) (p : Path) (s2 : FsState)
    (pa : Access) (pm : Manifest)
    (h : mkdir s now p = .ok s2)
    (hret : retrieve_entry_read_only s now (pathParent p) = .ok (pa, pm)) :
    s2 = sendEntryUpdated (sendEntryUpdated
      (setManifest (setManifest { s with nextId := s.nextId + 1 } pa
        (pm.evolve_children_and_mark_updated now [(pathName p, some ⟨s.nextId⟩)]))
        ⟨s.nextId⟩ (LocalFolderManifest s.localAuthor now [])) pa) ⟨s.nextId⟩ := by
  unfold mkdir at h
  by_cases h1 : pathIsRoot p = true
  · rw [if_pos h1] at h
    exact absurd h (by simp)
  · rw [if_neg h1] at h
    by_cases h2 : pathIsRoot (pathParent p) = true
    · rw [if_pos h2] at h
      exact absurd h (by simp)
    · rw [if_neg h2] at h
      split at h
      · exact absurd h (by simp)
      · rename_i pa' pm' heq
        rw [hret] at heq
        injection heq with heq
        have hpa : pa = pa' := congrArg Prod.fst heq
        have hpm : pm = pm' := congrArg Prod.snd heq
        subst hpa; subst hpm
        split at h
        · exact absurd h (by simp)
        · split at h
          · exact absurd h (by simp)
          · exact (Except.ok.inj h).symm

theorem workspace_create_ok_shape (s : FsState) (now : Nat) (p : Path) (s2 : FsState)
    (h : workspace_create s now p = .ok s2) :
    s2 = sendWorkspaceLoaded (sendEntryUpdated (sendEntryUpdated
      (setManifest (setManifest { s with nextId := s.nextId + 1 } s.rootAccess
        ((get_user_manifest s now).evolve_children_and_mark_updated now
          [(pathName p, some ⟨s.nextId⟩)]))
        ⟨s.nextId⟩ (LocalWorkspaceManifest s.localAuthor now [])) s.rootAccess)
      ⟨s.nextId⟩) ⟨s.nextId⟩ := by
  unfold workspace_create at h
  dsimp only [] at h
  split at h
  · exact absurd h (by simp)
  · split at h
    · exact absurd h (by simp)
    · exact (Except.ok.inj h).symm

theorem workspace_rename_ok_shape (s : FsState) (now : Nat) (src dst : Path) (s2 : FsState)
    (h : workspace_rename s now src dst = .ok s2) :
    ∃ wsAccess : Access,
      alookup (pathName src) (get_user_manifest s now).children = some wsAccess ∧
      (alookup (pathName dst) (get_user_manifest s now).children).isSome = false ∧
      s2 = sendEntryUpdated (setManifest s s.rootAccess
        ((get_user_manifest s now).evolve_children_and_mark_updated now
          [(pathName dst, some wsAccess), (pathName src, none)])) s.rootAccess := by
  unfold workspace_rename at h
  dsimp only [] at h
  split at h
  · exact absurd h (by simp)
  · split at h
    · exact absurd h (by simp)
    · split at h
      · exact absurd h (by simp)
      · split at h
        · exact absurd h (by simp)
        · rename_i hni
          have hdst : (alookup (pathName dst) (get_user_manifest s now).children).isSome
              = false := by
            cases hb : (alookup (pathName dst) (get_user_manifest s now).children).isSome
            · rfl
            · exact absurd hb hni
          split at h
          · exact absurd h (by simp)
          · rename_i wsAccess hlook
            exact ⟨wsAccess, hlook, hdst, (Except.ok.inj h).symm⟩

theorem deleteCore_ok_shape (s : FsState) (now : Nat) (p : Path) (expect : DeleteExpect)
    (s2 : FsState) (pa : Access) (pm : Manifest)
    (h : deleteCore s now p expect = .ok s2)
    (hret : retrieve_entry_read_only s now (pathParent p) = .ok (pa, pm)) :
    s2 = deleteWrite s now p pa pm := by
  unfold deleteCore at h
  by_cases h1 : pathIsRoot p = true
  · rw [if_pos h1] at h
    exact absurd h (by simp)
  · rw [if_neg h1] at h
    split at h
    · exact absurd h (by simp)
    · rename_i pa' pm' heq
      rw [hret] at heq
      injection heq with heq
      have hpa : pa = pa' := congrArg Prod.fst heq
      have hpm : pm = pm' := congrArg Prod.snd heq
      subst hpa; subst hpm
      split at h
      · exact absurd h (by simp)
      · split at h
        · exact absurd h (by simp)
        · split at h
          · exact absurd h (by simp)
          · split at h
            · split at h
              · exact absurd h (by simp)
              · split at h
                · exact absurd h (by simp)
                · exact (Except.ok.inj h).symm
            · split at h
              · exact absurd h (by simp)
              · exact (Except.ok.inj h).symm

theorem copyCore_sameParent_ok_shape (fuel : Nat) (s : FsState) (now : Nat)
    (src dst : Path) (b : Bool) (s2 : FsState) (pa : Access) (pm : Manifest)
    (hne : src ≠ dst) (hpp : pathParent src = pathParent dst)
    (h : copyCore fuel s now src dst b = .ok s2)
    (hret : retrieve_entry_read_only s now (pathParent src) = .ok (pa, pm)) :
    ∃ (srcAccess : Access) (srcManifest : Manifest) (res : Access × FsState),
      alookup (pathName src) pm.children = some srcAccess ∧
      get_manifest_read_only s now srcAccess = .ok srcManifest ∧
      is_workspace_manifest srcManifest = false ∧
      recursive_manifest_copy s now fuel srcAccess srcManifest = .ok res ∧
      s2 = sendEntryUpdated (setManifest res.2 pa
        (if b = false then pm.evolve_children [(pathName dst, some res.1)]
         else pm.evolve_children
           [(pathName dst, some res.1), (pathName src, none)])) pa := by
  unfold copyCore at h
  dsimp only [] at h
  by_cases h1 : pathIsRoot src = true
  · rw [if_pos h1] at h
    split at h
    · exact absurd h (by simp)
    · split at h <;> exact absurd h (by simp)
  · rw [if_neg h1] at h
    by_cases h2 : pathIsRoot dst = true
    · rw [if_pos h2] at h
      split at h
      · exact absurd h (by simp)
      · split at h <;> exact absurd h (by simp)
    · rw [if_neg h2] at h
      rw [if_neg hne] at h
      rw [if_pos hpp] at h
      split at h
      · exact absurd h (by simp)
      · rename_i pa' pm' heq
        rw [hret] at heq
        injection heq with heq
        have hpa : pa = pa' := congrArg Prod.fst heq
        have hpm : pm = pm' := congrArg Prod.snd heq
        subst hpa; subst hpm
        split at h
        · exact absurd h (by simp)
        · split at h
          · exact absurd h (by simp)
          · split at h
            · exact absurd h (by simp)
            · rename_i srcAccess hlook
              split at h
              · exact absurd h (by simp)
              · rename_i srcManifest hget
                split at h
                · exact absurd h (by simp)
                · rename_i hws
                  split at h
                  · exact absurd h (by simp)
                  · split at h
                    · exact absurd h (by simp)
                    · rename_i movedAccess sMid hrmc
                      refine ⟨srcAccess, srcManifest, (movedAccess, sMid), hlook, hget,
                        ?_, hrmc, ?_⟩
                      · cases hb : is_workspace_manifest srcManifest
                        · rfl
                        · exact absurd hb (by assumption)
                      · exact (Except.ok.inj h).symm

theorem copyCore_crossParent_ok_shape (fuel : Nat) (s : FsState) (now : Nat)
    (src dst : Path) (b : Bool) (s2 : FsState) (psa pda : Access) (psm pdm : Manifest)
    (hppne : pathParent src ≠ pathParent dst)
    (h : copyCore fuel s now src dst b = .ok s2)
    (hps : retrieve_entry_read_only s now (pathParent src) = .ok (psa, psm))
    (hpd : retrieve_entry_read_only s now (pathParent dst) = .ok (pda, pdm)) :
    ∃ (srcAccess : Access) (srcManifest : Manifest) (res : Access × FsState),
      alookup (pathName src) psm.children = some srcAccess ∧
      get_manifest_read_only s now srcAccess = .ok srcManifest ∧
      is_workspace_manifest srcManifest = false ∧
      recursive_manifest_copy s now fuel srcAccess srcManifest = .ok res ∧
      s2 = (if b then
        sendEntryUpdated (setManifest (sendEntryUpdated (setManifest res.2 pda
          (pdm.evolve_children_and_mark_updated now [(pathName dst, some res.1)])) pda)
          psa (psm.evolve_children_and_mark_updated now [(pathName src, none)])) psa
      else
        sendEntryUpdated (setManifest res.2 pda
          (pdm.evolve_children_and_mark_updated now [(pathName dst, some res.1)])) pda) := by
  unfold copyCore at h
  dsimp only [] at h
  by_cases h1 : pathIsRoot src = true
  · rw [if_pos h1] at h
    split at h
    · exact absurd h (by simp)
    · split at h <;> exact absurd h (by simp)
  · rw [if_neg h1] at h
    by_cases h2 : pathIsRoot dst = true
    · rw [if_pos h2] at h
      split at h
      · exact absurd h (by simp)
      · split at h <;> exact absurd h (by simp)
    · rw [if_neg h2] at h
      by_cases h3 : src = dst
      · exact absurd (h3 ▸ hppne) (fun hc => hc rfl)
      · rw [if_neg h3] at h
        rw [if_neg hppne] at h
        by_cases h4 : pathIsRoot (pathParent dst) = true
        · rw [if_pos h4] at h
          exact absurd h (by simp)
        · rw [if_neg h4] at h
          split at h
          · exact absurd h (by simp)
          · rename_i psa' psm' heqs
            rw [hps] at heqs
            injection heqs with heqs
            have hpa : psa = psa' := congrArg Prod.fst heqs
            have hpm : psm = psm' := congrArg Prod.snd heqs
            subst hpa; subst hpm
            split at h
            · exact absurd h (by simp)
            · split at h
              · exact absurd h (by simp)
              · rename_i pda' pdm' heqd
                rw [hpd] at heqd
                injection heqd with heqd
                have hpa2 : pda = pda' := congrArg Prod.fst heqd
                have hpm2 : pdm = pdm' := congrArg Prod.snd heqd
                subst hpa2; subst hpm2
                split at h
                · exact absurd h (by simp)
                · split at h
                  · exact absurd h (by simp)
                  · split at h
                    · exact absurd h (by simp)
                    · rename_i srcAccess hlook
                      split at h
                      · exact absurd h (by simp)
                      · rename_i srcManifest hget
                        split at h
                        · exact absurd h (by simp)
                        · rename_i hws
                          split at h
                          · exact absurd h (by simp)
                          · split at h
                            · exact absurd h (by simp)
                            · rename_i movedAccess sMid hrmc
                              refine ⟨srcAccess, srcManifest, (movedAccess, sMid),
                                hlook, hget, ?_, hrmc, ?_⟩
                              · cases hb : is_workspace_manifest srcManifest
                                · rfl
                                · exact absurd hb (by assumption)
                              · by_cases hbt : b = true
                                · subst hbt
                                  rw [if_pos rfl] at h
                                  rw [if_pos rfl]
                                  exact (Except.ok.inj h).symm
                                · have hbf : b = false := by
                                    cases b
                                    · rfl
                                    · exact absurd rfl hbt
                                  subst hbf
                                  rw [if_neg (by simp)] at h
                                  rw [if_neg (by simp)]
                                  exact (Except.ok.inj h).symm

theorem sget_some_pair_mem : ∀ (l : List (Nat × Manifest)) (id : Nat) (m : Manifest),
    sget l id = some m → (id, m) ∈ l
  | [], id, m, h => by simp [sget] at h
  | (k, w) :: rest, id, m, h => by
    rw [sget] at h
    by_cases hk : k = id
    · rw [if_pos hk] at h
      injection h with h
      subst hk; subst h
      exact List.mem_cons_self _ _
    · rw [if_neg hk] at h
      exact List.mem_cons_of_mem _ (sget_some_pair_mem rest id m h)

theorem wfCheck_sound (s : FsState) (h : wfCheck s = true) : WfState s := by
  rw [wfCheck, Bool.and_eq_true] at h
  obtain ⟨h1, h2⟩ := h
  rw [List.all_eq_true] at h2
  constructor
  · exact of_decide_eq_true h1
  · intro id m hs
    have hp := h2 _ (sget_some_pair_mem s.store id m hs)
    rw [Bool.and_eq_true] at hp
    exact of_decide_eq_true hp.1
  · intro id m hs name ca hmem
    have hp := h2 _ (sget_some_pair_mem s.store id m hs)
    rw [Bool.and_eq_true] at hp
    have hc := hp.2
    rw [List.all_eq_true] at hc
    exact of_decide_eq_true (hc _ hmem)

theorem ecmu_needSync (m : Manifest) (now : Nat) (d : List (String × Option Access)) :
    (m.evolve_children_and_mark_updated now d).needSync = true := rfl

theorem ecmu_updated (m : Manifest) (now : Nat) (d : List (String × Option Access)) :
    (m.evolve_children_and_mark_updated now d).updated = now := rfl

theorem ec_needSync (m : Manifest) (d : List (String × Option Access)) :
    (m.evolve_children d).needSync = m.needSync := rfl

theorem ec_updated (m : Manifest) (d : List (String × Option Access)) :
    (m.evolve_children d).updated = m.updated := rfl

theorem path_parent_name : ∀ p : Path, p ≠ [] → pathParent p ++ [pathName p] = p
  | [], h => absurd rfl h
  | [x], _ => rfl
  | x :: y :: ys, _ => by
    have htail := path_parent_name (y :: ys) (by simp)
    show (x :: (y :: ys).dropLast) ++ [pathName (y :: ys)] = x :: y :: ys
    rw [List.cons_append]
    rw [show pathParent (y :: ys) = (y :: ys).dropLast from rfl] at htail
    rw [htail]

mutual
theorem process_map_facts (now : Nat) : ∀ (s : FsState) (cm : CopyMap),
    s.nextId ≤ (recursive_process_copy_map now s cm).2.nextId ∧
    (∀ id, id < s.nextId →
      sget (recursive_process_copy_map now s cm).2.store id = sget s.store id) ∧
    (∃ ws, (recursive_process_copy_map now s cm).2.trace = s.trace ++ ws ∧
      ∀ x ∈ ws, ∃ i, x = Action.writeManifest i)
  | s, CopyMap.node a m children => by
    unfold recursive_process_copy_map
    dsimp only []
    split
    · refine ⟨Nat.le_succ _, ?_, [Action.writeManifest s.nextId], rfl, ?_⟩
      · intro id hid
        exact sget_set_ne _ _ _ _ (Nat.ne_of_gt hid)
      · intro x hx
        rw [List.mem_singleton] at hx
        exact ⟨s.nextId, hx⟩
    · obtain ⟨hle, hfr, ws, htr, hws⟩ :=
        process_children_facts now { s with nextId := s.nextId + 1 } children
      refine ⟨le_trans (Nat.le_succ _) hle, ?_, ws ++ [Action.writeManifest s.nextId],
        ?_, ?_⟩
      · intro id hid
        rw [sget_set_ne _ _ _ _ (Nat.ne_of_gt hid)]
        exact hfr id (lt_of_lt_of_le (Nat.lt_succ_of_lt hid) (le_refl _))
      · show (recursive_process_children now { s with nextId := s.nextId + 1 }
            children).2.trace ++ [Action.writeManifest s.nextId] = _
        rw [htr]
        show s.trace ++ ws ++ _ = _
        rw [List.append_assoc]
      · intro x hx
        rw [List.mem_append] at hx
        cases hx with
        | inl hx => exact hws x hx
        | inr hx =>
          rw [List.mem_singleton] at hx
          exact ⟨s.nextId, hx⟩
theorem process_children_facts (now : Nat) : ∀ (s : FsState) (cc : CopyChildren),
    s.nextId ≤ (recursive_process_children now s cc).2.nextId ∧
    (∀ id, id < s.nextId →
      sget (recursive_process_children now s cc).2.store id = sget s.store id) ∧
    (∃ ws, (recursive_process_children now s cc).2.trace = s.trace ++ ws ∧
      ∀ x ∈ ws, ∃ i, x = Action.writeManifest i)
  | s, CopyChildren.nil =>
    ⟨le_refl _, fun _ _ => rfl, [], by simp [recursive_process_children], by simp⟩
  | s, CopyChildren.cons name cm rest => by
    obtain ⟨hle1, hfr1, ws1, htr1, hws1⟩ := process_map_facts now s cm
    obtain ⟨hle2, hfr2, ws2, htr2, hws2⟩ :=
      process_children_facts now (recursive_process_copy_map now s cm).2 rest
    unfold recursive_process_children
    dsimp only []
    refine ⟨le_trans hle1 hle2, ?_, ws1 ++ ws2, ?_, ?_⟩
    · intro id hid
      rw [hfr2 id (lt_of_lt_of_le hid hle1)]
      exact hfr1 id hid
    · rw [htr2, htr1, List.append_assoc]
    · intro x hx
      rw [List.mem_append] at hx
      cases hx with
      | inl hx => exact hws1 x hx
      | inr hx => exact hws2 x hx
end

theorem process_map_fst (now : Nat) (s : FsState) (cm : CopyMap) :
    (recursive_process_copy_map now s cm).1 = ⟨s.nextId⟩ := by
  cases cm with
  | node a m children =>
    unfold recursive_process_copy_map
    dsimp only []
    split
    · rfl
    · rfl

theorem rmc_ok_facts (s : FsState) (now fuel : Nat) (a : Access) (m : Manifest)
    (res : Access × FsState)
    (h : recursive_manifest_copy s now fuel a m = .ok res) :
    res.1 = ⟨s.nextId⟩ ∧ s.nextId ≤ res.2.nextId ∧
    (∀ id, id < s.nextId → sget res.2.store id = sget s.store id) ∧
    (∃ ws, res.2.trace = s.trace ++ ws ∧ ∀ x ∈ ws, ∃ i, x = Action.writeManifest i) := by
  unfold recursive_manifest_copy at h
  split at h
  · exact absurd h (by simp)
  · rename_i cm hcm
    have hres : res = recursive_process_copy_map now s cm := (Except.ok.inj h).symm
    obtain ⟨h1, h2, h3⟩ := process_map_facts now s cm
    rw [hres]
    exact ⟨process_map_fst now s cm, h1, h2, h3⟩

/-- C1 counterexample: in the synced concrete state `exS` (workspace
manifest `w` has `need_sync = false`, `updated = 0`), the same-parent move
`move("/w/a", "/w/b")` at clock 5 succeeds, yet afterwards the parent
manifest of the mutated entries still has `need_sync = false` and an
unchanged `updated`, because the same-parent branch of `_copy` rewrites the
parent with `evolve_children` instead of
`evolve_children_and_mark_updated`. -/
theorem c1_counterexample_same_parent_move :
    (move 10 exS 5 ["w", "a"] ["w", "b"]).isOk = true ∧
    (move 10 exS 5 ["w", "a"] ["w", "b"]).map
        (fun s => (sget s.store 1).map (fun m => (m.needSync, m.updated))) =
      .ok (some (false, 0)) ∧
    get_access exS 5 ["w"] = .ok ⟨1⟩ := by
  decide

/-- C1 amended: every mutation marks the parent manifest of the mutated
entry with `need_sync = true` and `updated = now` — hence `updated` is not
decreased under a monotone clock — for `touch`, `mkdir`,
`workspace_create`, `workspace_rename`, `_delete` (so `delete`, `unlink`,
`rmdir`), and for cross-parent `move`/`copy` (both parents for a move);
except that a same-parent `move`/`copy` leaves the parent's `need_sync` and
`updated` exactly unchanged (the code uses `evolve_children` there). -/
theorem c1_mutation_marks_parent_amended :
    (∀ (s : FsState) (now : Nat) (p : Path) (s2 : FsState) (pa : Access) (pm : Manifest),
      WfState s → touch s now p = .ok s2 →
      retrieve_entry_read_only s now (pathParent p) = .ok (pa, pm) →
      ∃ pm2 : Manifest, sget s2.store pa.id = some pm2 ∧ pm2.needSync = true ∧
        pm2.updated = now ∧ (pm.updated ≤ now → pm.updated ≤ pm2.updated)) ∧
    (∀ (s : FsState) (now : Nat) (p : Path) (s2 : FsState) (pa : Access) (pm : Manifest),
      WfState s → mkdir s now p = .ok s2 →
      retrieve_entry_read_only s now (pathParent p) = .ok (pa, pm) →
      ∃ pm2 : Manifest, sget s2.store pa.id = some pm2 ∧ pm2.needSync = true ∧
        pm2.updated = now ∧ (pm.updated ≤ now → pm.updated ≤ pm2.updated)) ∧
    (∀ (s : FsState) (now : Nat) (p : Path) (s2 : FsState),
      WfState s → workspace_create s now p = .ok s2 →
      ∃ rm2 : Manifest, sget s2.store s.rootAccess.id = some rm2 ∧ rm2.needSync = true ∧
        rm2.updated = now ∧ ((get_user_manifest s now).updated ≤ now →
          (get_user_manifest s now).updated ≤ rm2.updated)) ∧
    (∀ (s : FsState) (now : Nat) (src dst : Path) (s2 : FsState),
      workspace_rename s now src dst = .ok s2 →
      ∃ rm2 : Manifest, sget s2.store s.rootAccess.id = some rm2 ∧ rm2.needSync = true ∧
        rm2.updated = now ∧ ((get_user_manifest s now).updated ≤ now →
          (get_user_manifest s now).updated ≤ rm2.updated)) ∧
    (∀ (s : FsState) (now : Nat) (p : Path) (expect : DeleteExpect) (s2 : FsState)
      (pa : Access) (pm : Manifest),
      deleteCore s now p expect = .ok s2 →
      retrieve_entry_read_only s now (pathParent p) = .ok (pa, pm) →
      ∃ pm2 : Manifest, sget s2.store pa.id = some pm2 ∧ pm2.needSync = true ∧
        pm2.updated = now ∧ (pm.updated ≤ now → pm.updated ≤ pm2.updated)) ∧
    (∀ (fuel : Nat) (s : FsState) (now : Nat) (src dst : Path) (b : Bool) (s2 : FsState)
      (psa pda : Access) (psm pdm : Manifest),
      pathParent src ≠ pathParent dst →
      copyCore fuel s now src dst b = .ok s2 →
      retrieve_entry_read_only s now (pathParent src) = .ok (psa, psm) →
      retrieve_entry_read_only s now (pathParent dst) = .ok (pda, pdm) →
      (∃ pdm2 : Manifest, sget s2.store pda.id = some pdm2 ∧ pdm2.needSync = true ∧
        pdm2.updated = now ∧ (pdm.updated ≤ now → pdm.updated ≤ pdm2.updated)) ∧
      (b = true → ∃ psm2 : Manifest, sget s2.store psa.id = some psm2 ∧
        psm2.needSync = true ∧ psm2.updated = now)) ∧
    (∀ (fuel : Nat) (s : FsState) (now : Nat) (src dst : Path) (b : Bool) (s2 : FsState)
      (pa : Access) (pm : Manifest),
      src ≠ dst → pathParent src = pathParent dst →
      copyCore fuel s now src dst b = .ok s2 →
      retrieve_entry_read_only s now (pathParent src) = .ok (pa, pm) →
      ∃ pm2 : Manifest, sget s2.store pa.id = some pm2 ∧
        pm2.needSync = pm.needSync ∧ pm2.updated = pm.updated) := by
  refine ⟨?_, ?_, ?_, ?_, ?_, ?_, ?_⟩
  · intro s now p s2 pa pm wf h hret
    obtain ⟨hlt, -⟩ := retrieve_ok_facts s now (pathParent p) pa pm wf hret
    have hs2 := touch_ok_shape s now p s2 pa pm h hret
    refine ⟨pm.evolve_children_and_mark_updated now [(pathName p, some ⟨s.nextId⟩)],
      ?_, rfl, rfl, fun hnow => hnow⟩
    rw [hs2, sendEntryUpdated_store, sendEntryUpdated_store,
      sget_set_ne _ _ _ _ (Nat.ne_of_gt hlt)]
    exact sget_set_self _ pa _
  · intro s now p s2 pa pm wf h hret
    obtain ⟨hlt, -⟩ := retrieve_ok_facts s now (pathParent p) pa pm wf hret
    have hs2 := mkdir_ok_shape s now p s2 pa pm h hret
    refine ⟨pm.evolve_children_and_mark_updated now [(pathName p, some ⟨s.nextId⟩)],
      ?_, rfl, rfl, fun hnow => hnow⟩
    rw [hs2, sendEntryUpdated_store, sendEntryUpdated_store,
      sget_set_ne _ _ _ _ (Nat.ne_of_gt hlt)]
    exact sget_set_self _ pa _
  · intro s now p s2 wf h
    have hs2 := workspace_create_ok_shape s now p s2 h
    refine ⟨(get_user_manifest s now).evolve_children_and_mark_updated now
      [(pathName p, some ⟨s.nextId⟩)], ?_, rfl, rfl, fun hnow => hnow⟩
    rw [hs2, sendWorkspaceLoaded_store, sendEntryUpdated_store, sendEntryUpdated_store,
      sget_set_ne _ _ _ _ (Nat.ne_of_gt wf.rootLt)]
    exact sget_set_self _ s.rootAccess _
  · intro s now src dst s2 h
    obtain ⟨wsAccess, hlook, hdst, hs2⟩ := workspace_rename_ok_shape s now src dst s2 h
    refine ⟨(get_user_manifest s now).evolve_children_and_mark_updated now
      [(pathName dst, some wsAccess), (pathName src, none)], ?_, rfl, rfl,
      fun hnow => hnow⟩
    rw [hs2, sendEntryUpdated_store]
    exact sget_set_self _ s.rootAccess _
  · intro s now p expect s2 pa pm h hret
    have hs2 := deleteCore_ok_shape s now p expect s2 pa pm h hret
    refine ⟨pm.evolve_children_and_mark_updated now [(pathName p, none)], ?_, rfl, rfl,
      fun hnow => hnow⟩
    rw [hs2, deleteWrite, sendEntryUpdated_store]
    exact sget_set_self _ pa _
  · intro fuel s now src dst b s2 psa pda psm pdm hne h hps hpd
    obtain ⟨srcAccess, srcManifest, res, hlook, hget, hws, hrmc, hs2⟩ :=
      copyCore_crossParent_ok_shape fuel s now src dst b s2 psa pda psm pdm hne h hps hpd
    constructor
    · by_cases hb : b = true
      · subst hb
        rw [if_pos rfl] at hs2
        by_cases hid : psa.id = pda.id
        · refine ⟨psm.evolve_children_and_mark_updated now [(pathName src, none)],
            ?_, rfl, rfl, fun hnow => hnow⟩
          rw [hs2, sendEntryUpdated_store, ← hid]
          exact sget_set_self _ psa _
        · refine ⟨pdm.evolve_children_and_mark_updated now [(pathName dst, some res.1)],
            ?_, rfl, rfl, fun hnow => hnow⟩
          rw [hs2, sendEntryUpdated_store, sget_set_ne _ _ _ _ hid,
            sendEntryUpdated_store]
          exact sget_set_self _ pda _
      · have hbf : b = false := by
          cases b
          · rfl
          · exact absurd rfl hb
        subst hbf
        rw [if_neg (by simp)] at hs2
        refine ⟨pdm.evolve_children_and_mark_updated now [(pathName dst, some res.1)],
          ?_, rfl, rfl, fun hnow => hnow⟩
        rw [hs2, sendEntryUpdated_store]
        exact sget_set_self _ pda _
    · intro hb
      subst hb
      rw [if_pos rfl] at hs2
      refine ⟨psm.evolve_children_and_mark_updated now [(pathName src, none)],
        ?_, rfl, rfl⟩
      rw [hs2, sendEntryUpdated_store]
      exact sget_set_self _ psa _
  · intro fuel s now src dst b s2 pa pm hne hpp h hret
    obtain ⟨srcAccess, srcManifest, res, hlook, hget, hws, hrmc, hs2⟩ :=
      copyCore_sameParent_ok_shape fuel s now src dst b s2 pa pm hne hpp h hret
    by_cases hb : b = false
    · subst hb
      rw [if_pos rfl] at hs2
      refine ⟨pm.evolve_children [(pathName dst, some res.1)], ?_, rfl, rfl⟩
      rw [hs2, sendEntryUpdated_store]
      exact sget_set_self _ pa _
    · have hbt : b = true := by
        cases b
        · exact absurd rfl hb
        · rfl
      subst hbt
      rw [if_neg (by simp)] at hs2
      refine ⟨pm.evolve_children [(pathName dst, some res.1), (pathName src, none)],
        ?_, rfl, rfl⟩
      rw [hs2, sendEntryUpdated_store]
      exact sget_set_self _ pa _

/-- C3 counterexample: `move(p, p)` on an existing non-workspace entry is a
validated no-op that succeeds without allocating anything: afterwards `dst`
is still bound to the old access `⟨2⟩` of the entry, which contradicts the
claim that every successful `move` binds `dst` to a freshly allocated
access different from the old one. -/
theorem c3_counterexample_self_move :
    move 10 exS 5 ["w", "a"] ["w", "a"] = .ok exS ∧
    get_access exS 5 ["w", "a"] = .ok ⟨2⟩ ∧
    is_workspace_manifest exFileM = false ∧
    retrieve_entry_read_only exS 5 ["w", "a"] = .ok (⟨2⟩, exFileM) := by
  decide

/-- C3 amended: for `src ≠ dst`, a successful `move` binds `dst` to the
freshly allocated access `⟨s.nextId⟩`, distinct from the entry's old access
(whose id is below the allocation counter), and unlinks the old access from
its parent — in the same-parent branch as well as across parents — whereas
a successful `workspace_rename` of a root-level workspace keeps the very
same access bound at the new name, leaves the workspace manifest entry
untouched and rewrites only the root user manifest. -/
theorem c3_move_fresh_rename_preserves_amended :
    (∀ (fuel : Nat) (s : FsState) (now : Nat) (src dst : Path) (s2 : FsState)
      (pa : Access) (pm : Manifest) (srcAccess : Access),
      WfState s → src ≠ [] → dst ≠ [] → src ≠ dst →
      pathParent src = pathParent dst →
      move fuel s now src dst = .ok s2 →
      retrieve_entry_read_only s now (pathParent src) = .ok (pa, pm) →
      alookup (pathName src) pm.children = some srcAccess →
      ∃ pm2 : Manifest, sget s2.store pa.id = some pm2 ∧
        alookup (pathName dst) pm2.children = some ⟨s.nextId⟩ ∧
        alookup (pathName src) pm2.children = none ∧
        srcAccess.id < s.nextId) ∧
    (∀ (fuel : Nat) (s : FsState) (now : Nat) (src dst : Path) (s2 : FsState)
      (psa pda : Access) (psm pdm : Manifest) (srcAccess : Access),
      WfState s → pathParent src ≠ pathParent dst → psa.id ≠ pda.id →
      move fuel s now src dst = .ok s2 →
      retrieve_entry_read_only s now (pathParent src) = .ok (psa, psm) →
      retrieve_entry_read_only s now (pathParent dst) = .ok (pda, pdm) →
      alookup (pathName src) psm.children = some srcAccess →
      ∃ pdm2 psm2 : Manifest, sget s2.store pda.id = some pdm2 ∧
        sget s2.store psa.id = some psm2 ∧
        alookup (pathName dst) pdm2.children = some ⟨s.nextId⟩ ∧
        alookup (pathName src) psm2.children = none ∧
        srcAccess.id < s.nextId) ∧
    (∀ (s : FsState) (now now2 : Nat) (sn dn : String) (s2 : FsState)
      (a : Access) (m : Manifest),
      workspace_rename s now [sn] [dn] = .ok s2 →
      retrieve_entry_read_only s now [sn] = .ok (a, m) →
      a.id ≠ s.rootAccess.id →
      get_access s2 now2 [dn] = .ok a ∧
      sget s2.store a.id = sget s.store a.id ∧
      (∀ id, id ≠ s.rootAccess.id → sget s2.store id = sget s.store id)) := by
  refine ⟨?_, ?_, ?_⟩
  · intro fuel s now src dst s2 pa pm srcAccess wf hsne hdne hne hpp h hret hlook
    obtain ⟨sa', sm', res, hlook', hget', hws', hrmc, hs2⟩ :=
      copyCore_sameParent_ok_shape fuel s now src dst true s2 pa pm hne hpp h hret
    rw [hlook] at hlook'
    have hsa : srcAccess = sa' := Option.some.inj hlook'
    subst hsa
    obtain ⟨hfst, -, -, -⟩ := rmc_ok_facts s now fuel srcAccess sm' res hrmc
    rw [if_neg (by simp)] at hs2
    have hnames : pathName dst ≠ pathName src := by
      intro heq
      apply hne
      have h1 := path_parent_name src hsne
      have h2 := path_parent_name dst hdne
      rw [← h1, ← h2, hpp, heq]
    have hnodup : (([(pathName dst, some res.1), (pathName src, none)] :
        List (String × Option Access)).map Prod.fst).Nodup := by
      simp [hnames]
    refine ⟨pm.evolve_children [(pathName dst, some res.1), (pathName src, none)],
      ?_, ?_, ?_, ?_⟩
    · rw [hs2, sendEntryUpdated_store]
      exact sget_set_self _ pa _
    · show alookup (pathName dst)
        (evolveChildrenMap pm.children
          [(pathName dst, some res.1), (pathName src, none)]) = some ⟨s.nextId⟩
      rw [alookup_evolve _ _ _ hnodup, alookup, if_pos rfl, hfst]
    · show alookup (pathName src)
        (evolveChildrenMap pm.children
          [(pathName dst, some res.1), (pathName src, none)]) = none
      rw [alookup_evolve _ _ _ hnodup, alookup, if_neg hnames, alookup, if_pos rfl]
    · obtain ⟨-, hro⟩ := retrieve_ok_facts s now (pathParent src) pa pm wf hret
      exact getRO_ok_bounded s now pa pm wf hro (pathName src) srcAccess
        (alookup_mem hlook)
  · intro fuel s now src dst s2 psa pda psm pdm srcAccess wf hppne hid h hps hpd hlook
    obtain ⟨sa', sm', res, hlook', hget', hws', hrmc, hs2⟩ :=
      copyCore_crossParent_ok_shape fuel s now src dst true s2 psa pda psm pdm hppne
        h hps hpd
    rw [hlook] at hlook'
    have hsa : srcAccess = sa' := Option.some.inj hlook'
    subst hsa
    obtain ⟨hfst, -, -, -⟩ := rmc_ok_facts s now fuel srcAccess sm' res hrmc
    rw [if_pos rfl] at hs2
    refine ⟨pdm.evolve_children_and_mark_updated now [(pathName dst, some res.1)],
      psm.evolve_children_and_mark_updated now [(pathName src, none)], ?_, ?_, ?_, ?_, ?_⟩
    · rw [hs2, sendEntryUpdated_store, sget_set_ne _ _ _ _ hid, sendEntryUpdated_store]
      exact sget_set_self _ pda _
    · rw [hs2, sendEntryUpdated_store]
      exact sget_set_self _ psa _
    · show alookup (pathName dst)
        (evolveChildrenMap pdm.children [(pathName dst, some res.1)]) = some ⟨s.nextId⟩
      rw [alookup_evolve _ _ _ (by simp), alookup, if_pos rfl, hfst]
    · show alookup (pathName src)
        (evolveChildrenMap psm.children [(pathName src, none)]) = none
      rw [alookup_evolve _ _ _ (by simp), alookup, if_pos rfl]
    · obtain ⟨-, hro⟩ := retrieve_ok_facts s now (pathParent src) psa psm wf hps
      exact getRO_ok_bounded s now psa psm wf hro (pathName src) srcAccess
        (alookup_mem hlook)
  · intro s now now2 sn dn s2 a m h hr hane
    obtain ⟨wsAccess, hlook, hdst, hs2⟩ := workspace_rename_ok_shape s now [sn] [dn] s2 h
    obtain ⟨hlook2, hget⟩ := retrieve_one s now sn a m hr
    have hname1 : pathName [sn] = sn := rfl
    have hname2 : pathName [dn] = dn := rfl
    rw [hname1] at hlook
    rw [hlook2] at hlook
    have hws : wsAccess = a := (Option.some.inj hlook).symm
    subst hws
    rw [hname1, hname2] at hs2
    have hndn : dn ≠ sn := by
      intro heq
      rw [hname2, heq, hlook2] at hdst
      exact absurd hdst (by simp)
    set root1 := (get_user_manifest s now).evolve_children_and_mark_updated now
      [(dn, some wsAccess), (sn, none)] with hroot1
    have hstore2 : s2.store = (s.rootAccess.id, root1) :: s.store := by
      rw [hs2, sendEntryUpdated_store]
      rfl
    have hframe : ∀ id, id ≠ s.rootAccess.id → sget s2.store id = sget s.store id := by
      intro id hid
      rw [hstore2, sget, if_neg (fun he => hid he.symm)]
    have hwsm : sget s2.store wsAccess.id = sget s.store wsAccess.id :=
      hframe wsAccess.id hane
    refine ⟨?_, hwsm, hframe⟩
    have hg2 : get_manifest_read_only s2 now2 s.rootAccess = .ok root1 := by
      unfold get_manifest_read_only
      rw [show s2.rootAccess = s.rootAccess from by rw [hs2]; rfl]
      rw [hstore2, sget, if_pos rfl]
    have hwsm2 : sget s2.store wsAccess.id = some m := by
      rw [hwsm]
      rcases getRO_ok_cases s now wsAccess m hget with hst | ⟨-, haroot, -⟩
      · exact hst
      · exact absurd (congrArg Access.id haroot) hane
    have hga2 : get_manifest_read_only s2 now2 wsAccess = .ok m := by
      unfold get_manifest_read_only
      rw [hwsm2]
    have hnodup : (([(dn, some wsAccess), (sn, none)] :
        List (String × Option Access)).map Prod.fst).Nodup := by
      simp [hndn]
    have halook : alookup dn root1.children = some wsAccess := by
      show alookup dn (evolveChildrenMap (get_user_manifest s now).children
        [(dn, some wsAccess), (sn, none)]) = some wsAccess
      rw [alookup_evolve _ _ _ hnodup, alookup, if_pos rfl]
    have hroots2 : s2.rootAccess = s.rootAccess := by rw [hs2]; rfl
    have hresolve : retrieve_entry_read_only s2 now2 [dn] = .ok (wsAccess, m) := by
      unfold retrieve_entry_read_only
      rw [hroots2, hg2]
      show walkHops s2 now2 [] root1 [] dn = .ok (wsAccess, m)
      rw [walkHops, halook]
      show (match get_manifest_read_only s2 now2 wsAccess with
        | Except.error e => (Except.error e : Except FsError (Access × Manifest))
        | Except.ok cm => Except.ok (wsAccess, cm)) = Except.ok (wsAccess, m)
      rw [hga2]
    unfold get_access
    rw [hresolve]

/-- C3 amended witness: the same-parent move of `/w/a` to `/w/b` on `exS`
binds `b` to the fresh access `⟨3⟩` and unlinks `a` (old access `⟨2⟩`). -/
theorem c3_move_fresh_rename_preserves_amended_witness :
    ∃ pm2 : Manifest,
      sget (match move 10 exS 5 ["w", "a"] ["w", "b"] with
        | .ok s => s
        | .error _ => exS).store 1 = some pm2 ∧
      alookup (pathName ["w", "b"]) pm2.children = some ⟨3⟩ ∧
      alookup (pathName ["w", "a"]) pm2.children = none ∧
      (2 : Nat) < 3 :=
  c3_move_fresh_rename_preserves_amended.1 10 exS 5 ["w", "a"] ["w", "b"]
    (match move 10 exS 5 ["w", "a"] ["w", "b"] with
      | .ok s => s
      | .error _ => exS) ⟨1⟩ exWsM ⟨2⟩ (wfCheck_sound exS (by decide)) (by decide)
    (by decide) (by decide) (by decide) (by decide) (by decide) (by decide)

theorem setManifest_trace (s : FsState) (a : Access) (m : Manifest) :
    (setManifest s a m).trace = s.trace ++ [Action.writeManifest a.id] := rfl

theorem sendEntryUpdated_trace (s : FsState) (a : Access) :
    (sendEntryUpdated s a).trace = s.trace ++ [Action.entryUpdated a.id] := rfl

theorem sendWorkspaceLoaded_trace (s : FsState) (a : Access) :
    (sendWorkspaceLoaded s a).trace = s.trace ++ [Action.workspaceLoaded a.id] := rfl

/-- C4 counterexample: the cross-parent `move("/w/d1/f", "/w/d2/f")` on the
concrete state `exS2` produces the write/event trace
`[write 5 (file copy), write 4 (dst parent), fs.entry.updated 4,
write 3 (src parent), fs.entry.updated 3]`: the destination parent's
`fs.entry.updated` is emitted before the source parent's manifest is
written, contradicting the claim that within one operation every event
comes after all writes and that both parents are written before either
parent's event. -/
theorem getRO_cached_events (s : FsState) (now : Nat)
    (cache : List (Nat × Manifest)) (a : Access) (m : Manifest)
    (c1 : List (Nat × Manifest)) (evs : List Action)
    (h : get_manifest_read_only_cached s now cache a = .ok (m, c1, evs)) :
    ∀ x ∈ evs, ∃ i, x = Action.workspaceLoaded i := by
  unfold get_manifest_read_only_cached at h
  split at h
  · rename_i mm hsg
    injection h with h
    have hevs : ([] : List Action) = evs := congrArg (fun p => p.2.2) h
    intro x hx
    rw [← hevs] at hx
    exact absurd hx (List.not_mem_nil x)
  · split at h
    · rename_i mm hsg
      injection h with h
      have hevs : (if is_workspace_manifest mm = true then
          [Action.workspaceLoaded a.id] else []) = evs := congrArg (fun p => p.2.2) h
      intro x hx
      rw [← hevs] at hx
      split at hx
      · rw [List.mem_singleton] at hx
        exact ⟨a.id, hx⟩
      · exact absurd hx (List.not_mem_nil x)
    · split at h
      · injection h with h
        have hevs : (if is_workspace_manifest (LocalUserManifest s.localAuthor now) = true
            then [Action.workspaceLoaded a.id] else []) = evs :=
          congrArg (fun p => p.2.2) h
        intro x hx
        rw [← hevs] at hx
        split at hx
        · rw [List.mem_singleton] at hx
          exact ⟨a.id, hx⟩
        · exact absurd hx (List.not_mem_nil x)
      · exact absurd h (by simp)

theorem walkHopsCached_events (s : FsState) (now : Nat) :
    ∀ (hops : List String) (cache : List (Nat × Manifest)) (evs0 : List Action)
      (sofar : Path) (m : Manifest) (destName : String) (a2 : Access) (m2 : Manifest)
      (c2 : List (Nat × Manifest)) (evs2 : List Action),
      walkHopsCached s now cache evs0 sofar m hops destName = .ok (a2, m2, c2, evs2) →
      (∀ x ∈ evs0, ∃ i, x = Action.workspaceLoaded i) →
      ∀ x ∈ evs2, ∃ i, x = Action.workspaceLoaded i := by
  intro hops
  induction hops with
  | nil =>
    intro cache evs0 sofar m destName a2 m2 c2 evs2 h h0
    unfold walkHopsCached at h
    split at h
    · exact absurd h (by simp)
    · rename_i a halook
      split at h
      · exact absurd h (by simp)
      · rename_i cm cache1 evs1 hget
        injection h with h
        have hevs : evs0 ++ evs1 = evs2 := congrArg (fun p => p.2.2.2) h
        intro x hx
        rw [← hevs] at hx
        rw [List.mem_append] at hx
        cases hx with
        | inl hx => exact h0 x hx
        | inr hx => exact getRO_cached_events s now cache a cm cache1 evs1 hget x hx
  | cons hop rest ih =>
    intro cache evs0 sofar m destName a2 m2 c2 evs2 h h0
    unfold walkHopsCached at h
    split at h
    · exact absurd h (by simp)
    · rename_i a halook
      split at h
      · exact absurd h (by simp)
      · rename_i hm cache1 evs1 hget
        split at h
        · refine ih cache1 (evs0 ++ evs1) (sofar ++ [hop]) hm destName a2 m2 c2 evs2 h ?_
          intro x hx
          rw [List.mem_append] at hx
          cases hx with
          | inl hx => exact h0 x hx
          | inr hx => exact getRO_cached_events s now cache a hm cache1 evs1 hget x hx
        · exact absurd h (by simp)

theorem retrieve_cached_events (s : FsState) (now : Nat)
    (cache : List (Nat × Manifest)) (path : Path) (a2 : Access) (m2 : Manifest)
    (c2 : List (Nat × Manifest)) (evs2 : List Action)
    (h : retrieve_entry_read_only_cached s now cache path = .ok (a2, m2, c2, evs2)) :
    ∀ x ∈ evs2, ∃ i, x = Action.workspaceLoaded i := by
  unfold retrieve_entry_read_only_cached at h
  split at h
  · exact absurd h (by simp)
  · rename_i rootManifest cache1 evs1 hget
    split at h
    · injection h with h
      have hevs : evs1 = evs2 := congrArg (fun p => p.2.2.2) h
      intro x hx
      rw [← hevs] at hx
      exact getRO_cached_events s now cache s.rootAccess rootManifest cache1 evs1 hget x hx
    · exact walkHopsCached_events s now path.dropLast cache1 evs1 [] rootManifest
        (pathName path) a2 m2 c2 evs2 h
        (fun x hx => getRO_cached_events s now cache s.rootAccess rootManifest cache1
          evs1 hget x hx)

theorem touch_cached_ok_shape (s : FsState) (now : Nat)
    (cache : List (Nat × Manifest)) (p : Path) (s2 : FsState)
    (c2 c1 : List (Nat × Manifest)) (pa : Access) (pm : Manifest) (evs : List Action)
    (h : touch_cached s now cache p = .ok (s2, c2))
    (hret : retrieve_entry_read_only_cached s now cache (pathParent p) =
      .ok (pa, pm, c1, evs)) :
    s2 = sendEntryUpdated (sendEntryUpdated
      (setManifest (setManifest
        { s with nextId := s.nextId + 1, trace := s.trace ++ evs } pa
        (pm.evolve_children_and_mark_updated now [(pathName p, some ⟨s.nextId⟩)]))
        ⟨s.nextId⟩ (LocalFileManifest s.localAuthor now 0 [] [])) pa) ⟨s.nextId⟩ := by
  unfold touch_cached at h
  by_cases h1 : pathIsRoot p = true
  · rw [if_pos h1] at h
    exact absurd h (by simp)
  · rw [if_neg h1] at h
    by_cases h2 : pathIsRoot (pathParent p) = true
    · rw [if_pos h2] at h
      exact absurd h (by simp)
    · rw [if_neg h2] at h
      split at h
      · exact absurd h (by simp)
      · rename_i pa' pm' c1' evs' heq
        rw [hret] at heq
        injection heq with heq
        have hpa : pa = pa' := congrArg Prod.fst heq
        have hrest := congrArg Prod.snd heq
        have hpm : pm = pm' := congrArg Prod.fst hrest
        have hrest2 := congrArg Prod.snd hrest
        have hevs : evs = evs' := congrArg Prod.snd hrest2
        subst hpa; subst hpm; subst hevs
        split at h
        · exact absurd h (by simp)
        · split at h
          · exact absurd h (by simp)
          · exact (congrArg Prod.fst (Except.ok.inj h)).symm

theorem c4_events_after_writes_counterexample :
    (move 10 exS2 5 ["w", "d1", "f"] ["w", "d2", "f"]).map (fun s => s.trace) =
      .ok [Action.writeManifest 5, Action.writeManifest 4, Action.entryUpdated 4,
        Action.writeManifest 3, Action.entryUpdated 3] ∧
    exS2.trace = [] := by
  decide

/-- C4 amended: within one operation every `fs.entry.updated` event is
emitted after the write of the manifest it refers to, with one event per
mutated access, and for `touch`, `mkdir`, `workspace_create`,
`workspace_rename`, `_delete`, same-parent `move`/`copy` and cross-parent
`copy`, all writes precede all deliberately emitted events; the ordering
guarantee fails in two ways.  First, a cross-parent `move`'s trace is
`copy-writes, write dst-parent, event dst-parent, write src-parent, event
src-parent`, so the destination event precedes the source-parent write.
Second, the guarantee cannot cover `fs.workspace.loaded`:
`_get_manifest_read_only` emits it whenever a cache miss loads a workspace
manifest, so an operation's path resolution emits it before any write —
shown over the explicit-cache semantics for `touch`, whose resolution
events are exactly such emissions and all precede its writes (ninth
conjunct), and exhibited concretely on a cold cache, where plain
`touch("/w/x")` emits `fs.workspace.loaded` for `w` first, while store and
id counter agree with the merged-store semantics (tenth conjunct). -/
theorem c4_events_after_writes_amended :
    (∀ (s : FsState) (now : Nat) (p : Path) (s2 : FsState) (pa : Access) (pm : Manifest),
      touch s now p = .ok s2 →
      retrieve_entry_read_only s now (pathParent p) = .ok (pa, pm) →
      s2.trace = s.trace ++ [Action.writeManifest pa.id, Action.writeManifest s.nextId,
        Action.entryUpdated pa.id, Action.entryUpdated s.nextId]) ∧
    (∀ (s : FsState) (now : Nat) (p : Path) (s2 : FsState) (pa : Access) (pm : Manifest),
      mkdir s now p = .ok s2 →
      retrieve_entry_read_only s now (pathParent p) = .ok (pa, pm) →
      s2.trace = s.trace ++ [Action.writeManifest pa.id, Action.writeManifest s.nextId,
        Action.entryUpdated pa.id, Action.entryUpdated s.nextId]) ∧
    (∀ (s : FsState) (now : Nat) (p : Path) (s2 : FsState),
      workspace_create s now p = .ok s2 →
      s2.trace = s.trace ++ [Action.writeManifest s.rootAccess.id,
        Action.writeManifest s.nextId, Action.entryUpdated s.rootAccess.id,
        Action.entryUpdated s.nextId, Action.workspaceLoaded s.nextId]) ∧
    (∀ (s : FsState) (now : Nat) (src dst : Path) (s2 : FsState),
      workspace_rename s now src dst = .ok s2 →
      s2.trace = s.trace ++ [Action.writeManifest s.rootAccess.id,
        Action.entryUpdated s.rootAccess.id]) ∧
    (∀ (s : FsState) (now : Nat) (p : Path) (expect : DeleteExpect) (s2 : FsState)
      (pa : Access) (pm : Manifest),
      deleteCore s now p expect = .ok s2 →
      retrieve_entry_read_only s now (pathParent p) = .ok (pa, pm) →
      s2.trace = s.trace ++ [Action.writeManifest pa.id, Action.entryUpdated pa.id]) ∧
    (∀ (fuel : Nat) (s : FsState) (now : Nat) (src dst : Path) (b : Bool) (s2 : FsState)
      (pa : Access) (pm : Manifest),
      src ≠ dst → pathParent src = pathParent dst →
      copyCore fuel s now src dst b = .ok s2 →
      retrieve_entry_read_only s now (pathParent src) = .ok (pa, pm) →
      ∃ ws, (∀ x ∈ ws, ∃ i, x = Action.writeManifest i) ∧
        s2.trace = s.trace ++ ws ++ [Action.writeManifest pa.id,
          Action.entryUpdated pa.id]) ∧
    (∀ (fuel : Nat) (s : FsState) (now : Nat) (src dst : Path) (s2 : FsState)
      (psa pda : Access) (psm pdm : Manifest),
      pathParent src ≠ pathParent dst →
      copy fuel s now src dst = .ok s2 →
      retrieve_entry_read_only s now (pathParent src) = .ok (psa, psm) →
      retrieve_entry_read_only s now (pathParent dst) = .ok (pda, pdm) →
      ∃ ws, (∀ x ∈ ws, ∃ i, x = Action.writeManifest i) ∧
        s2.trace = s.trace ++ ws ++ [Action.writeManifest pda.id,
          Action.entryUpdated pda.id]) ∧
    (∀ (fuel : Nat) (s : FsState) (now : Nat) (src dst : Path) (s2 : FsState)
      (psa pda : Access) (psm pdm : Manifest),
      pathParent src ≠ pathParent dst →
      move fuel s now src dst = .ok s2 →
      retrieve_entry_read_only s now (pathParent src) = .ok (psa, psm) →
      retrieve_entry_read_only s now (pathParent dst) = .ok (pda, pdm) →
      ∃ ws, (∀ x ∈ ws, ∃ i, x = Action.writeManifest i) ∧
        s2.trace = s.trace ++ ws ++ [Action.writeManifest pda.id,
          Action.entryUpdated pda.id, Action.writeManifest psa.id,
          Action.entryUpdated psa.id]) ∧
    (∀ (s : FsState) (now : Nat) (cache : List (Nat × Manifest)) (p : Path)
      (s2 : FsState) (c2 c1 : List (Nat × Manifest)) (pa : Access) (pm : Manifest)
      (evs : List Action),
      touch_cached s now cache p = .ok (s2, c2) →
      retrieve_entry_read_only_cached s now cache (pathParent p) =
        .ok (pa, pm, c1, evs) →
      (∀ x ∈ evs, ∃ i, x = Action.workspaceLoaded i) ∧
      s2.trace = s.trace ++ evs ++ [Action.writeManifest pa.id,
        Action.writeManifest s.nextId, Action.entryUpdated pa.id,
        Action.entryUpdated s.nextId]) ∧
    ((touch_cached exS 5 [] ["w", "x"]).map (fun r => r.1.trace) =
      .ok [Action.workspaceLoaded 1, Action.writeManifest 1, Action.writeManifest 3,
        Action.entryUpdated 1, Action.entryUpdated 3] ∧
    (touch_cached exS 5 [] ["w", "x"]).map (fun r => (r.1.store, r.1.nextId)) =
      (touch exS 5 ["w", "x"]).map (fun s2 => (s2.store, s2.nextId))) := by
  refine ⟨?_, ?_, ?_, ?_, ?_, ?_, ?_, ?_, ?_, ?_⟩
  · intro s now p s2 pa pm h hret
    have hs2 := touch_ok_shape s now p s2 pa pm h hret
    rw [hs2]
    simp [setManifest, sendEntryUpdated]
  · intro s now p s2 pa pm h hret
    have hs2 := mkdir_ok_shape s now p s2 pa pm h hret
    rw [hs2]
    simp [setManifest, sendEntryUpdated]
  · intro s now p s2 h
    have hs2 := workspace_create_ok_shape s now p s2 h
    rw [hs2]
    simp [setManifest, sendEntryUpdated, sendWorkspaceLoaded]
  · intro s now src dst s2 h
    obtain ⟨wsAccess, hlook, hdst, hs2⟩ := workspace_rename_ok_shape s now src dst s2 h
    rw [hs2]
    simp [setManifest, sendEntryUpdated]
  · intro s now p expect s2 pa pm h hret
    have hs2 := deleteCore_ok_shape s now p expect s2 pa pm h hret
    rw [hs2]
    simp [deleteWrite, setManifest, sendEntryUpdated]
  · intro fuel s now src dst b s2 pa pm hne hpp h hret
    obtain ⟨sa', sm', res, hlook', hget', hws', hrmc, hs2⟩ :=
      copyCore_sameParent_ok_shape fuel s now src dst b s2 pa pm hne hpp h hret
    obtain ⟨-, -, -, ws, htr, hws⟩ := rmc_ok_facts s now fuel sa' sm' res hrmc
    refine ⟨ws, hws, ?_⟩
    rw [hs2, sendEntryUpdated_trace, setManifest_trace, htr]
    simp
  · intro fuel s now src dst s2 psa pda psm pdm hne h hps hpd
    obtain ⟨sa', sm', res, hlook', hget', hws', hrmc, hs2⟩ :=
      copyCore_crossParent_ok_shape fuel s now src dst false s2 psa pda psm pdm hne
        h hps hpd
    obtain ⟨-, -, -, ws, htr, hws⟩ := rmc_ok_facts s now fuel sa' sm' res hrmc
    rw [if_neg (by simp)] at hs2
    refine ⟨ws, hws, ?_⟩
    rw [hs2, sendEntryUpdated_trace, setManifest_trace, htr]
    simp
  · intro fuel s now src dst s2 psa pda psm pdm hne h hps hpd
    obtain ⟨sa', sm', res, hlook', hget', hws', hrmc, hs2⟩ :=
      copyCore_crossParent_ok_shape fuel s now src dst true s2 psa pda psm pdm hne
        h hps hpd
    obtain ⟨-, -, -, ws, htr, hws⟩ := rmc_ok_facts s now fuel sa' sm' res hrmc
    rw [if_pos rfl] at hs2
    refine ⟨ws, hws, ?_⟩
    rw [hs2, sendEntryUpdated_trace, setManifest_trace, sendEntryUpdated_trace,
      setManifest_trace, htr]
    simp
  · intro s now cache p s2 c2 c1 pa pm evs h hret
    refine ⟨retrieve_cached_events s now cache (pathParent p) pa pm c1 evs hret, ?_⟩
    rw [touch_cached_ok_shape s now cache p s2 c2 c1 pa pm evs h hret]
    simp [setManifest, sendEntryUpdated]
  · exact ⟨by decide, by decide⟩

/-- C4 amended witness: the trace of `touch("/w/d2/x")` on `exS2`. -/
theorem c4_events_after_writes_amended_witness :
    (match touch exS2 7 ["w", "d2", "x"] with
      | .ok s => s
      | .error _ => exS2).trace =
      exS2.trace ++ [Action.writeManifest 4, Action.writeManifest 5,
        Action.entryUpdated 4, Action.entryUpdated 5] :=
  c4_events_after_writes_amended.1 exS2 7 ["w", "d2", "x"]
    (match touch exS2 7 ["w", "d2", "x"] with
      | .ok s => s
      | .error _ => exS2) ⟨4⟩ exD2M (by decide) (by decide)

set_option maxHeartbeats 1000000 in
theorem combine_error_not_multimiss
    (rs : List (Sum Access (String × Except FsError CopyMap))) :
    ∀ e, combineCopyResults rs = .error e →
      ∀ l, e ≠ FsError.multiManifestLocalMiss l := by
  induction rs with
  | nil =>
    intro e h l hne
    exact absurd h (by simp [combineCopyResults])
  | cons r rest ih =>
    intro e h l hne
    subst hne
    cases r with
    | inl ca =>
      have hstep : combineCopyResults (Sum.inl ca :: rest) =
        (match combineCopyResults rest with
         | .ok (chl, miss) => .ok (chl, ca :: miss)
         | .error e => .error e) := rfl
      rw [hstep] at h
      split at h
      · exact absurd h (by simp)
      · rename_i e0 heq
        injection h with h
        exact ih e0 heq l (by rw [h])
    | inr p =>
      obtain ⟨name, res⟩ := p
      cases res with
      | ok cm =>
        have hstep : combineCopyResults (Sum.inr (name, Except.ok cm) :: rest) =
          (match combineCopyResults rest with
           | .ok (chl, miss) => .ok (CopyChildren.cons name cm chl, miss)
           | .error e => .error e) := rfl
        rw [hstep] at h
        split at h
        · exact absurd h (by simp)
        · rename_i e0 heq
          injection h with h
          exact ih e0 heq l (by rw [h])
      | error e0 =>
        cases e0
        case multiManifestLocalMiss l0 =>
          have hstep : combineCopyResults
              (Sum.inr (name, Except.error (FsError.multiManifestLocalMiss l0)) :: rest) =
            (match combineCopyResults rest with
             | .ok (chl, miss) => .ok (chl, l0 ++ miss)
             | .error e => .error e) := rfl
          rw [hstep] at h
          split at h
          · exact absurd h (by simp)
          · rename_i e1 heq
            injection h with h
            exact ih e1 heq l (by rw [h])
        all_goals exact FsError.noConfusion (Except.error.inj h)

theorem missing_to_childmiss (s : FsState) (now : Nat) (m : Manifest) (x : Access)
    (h : MissingFrom s now m x) : ChildMissOf s now m.children x := by
  cases h with
  | base hf hmem hg => exact ⟨_, _, hmem, Or.inl hg⟩
  | step hf hmem hg hm => exact ⟨_, _, hmem, Or.inr ⟨_, hg, hm⟩⟩

theorem childmiss_to_missing (s : FsState) (now : Nat) (m : Manifest) (x : Access)
    (hf : is_folderish_manifest m = true) (h : ChildMissOf s now m.children x) :
    MissingFrom s now m x := by
  obtain ⟨name, ca, hmem, hcase⟩ := h
  cases hcase with
  | inl hg => exact MissingFrom.base hf hmem hg
  | inr hg =>
    obtain ⟨cm, hg, hm⟩ := hg
    exact MissingFrom.step hf hmem hg hm

theorem missing_folderish (s : FsState) (now : Nat) (m : Manifest) (x : Access)
    (h : MissingFrom s now m x) : is_folderish_manifest m = true := by
  cases h with
  | base hf hmem hg => exact hf
  | step hf hmem hg hm => exact hf

theorem combine_ok_chars (rs : List (Sum Access (String × Except FsError CopyMap))) :
    ∀ chl miss, combineCopyResults rs = .ok (chl, miss) →
      ∀ x, (x ∈ miss ↔ (Sum.inl x ∈ rs ∨
        ∃ nm l, Sum.inr (nm, Except.error (FsError.multiManifestLocalMiss l)) ∈ rs ∧
          x ∈ l)) := by
  induction rs with
  | nil =>
    intro chl miss h x
    have h3 : (Except.ok (CopyChildren.nil, ([] : List Access)) :
        Except FsError (CopyChildren × List Access)) = .ok (chl, miss) := h
    injection h3 with h3
    have hm : miss = [] := (congrArg Prod.snd h3).symm
    subst hm
    simp
  | cons r rest ih =>
    intro chl miss h x
    cases r with
    | inl ca =>
      have hstep : combineCopyResults (Sum.inl ca :: rest) =
        (match combineCopyResults rest with
         | .ok (chl, miss) => .ok (chl, ca :: miss)
         | .error e => .error e) := rfl
      rw [hstep] at h
      split at h
      · rename_i chl0 miss0 heq
        injection h with h
        have hm : miss = ca :: miss0 := (congrArg Prod.snd h).symm
        subst hm
        have hiff := ih chl0 miss0 heq x
        constructor
        · intro hx
          rw [List.mem_cons] at hx
          cases hx with
          | inl hx => exact Or.inl (by rw [hx]; exact List.mem_cons_self _ _)
          | inr hx =>
            cases hiff.1 hx with
            | inl h1 => exact Or.inl (List.mem_cons_of_mem _ h1)
            | inr h1 =>
              obtain ⟨nm, l, hmem, hxl⟩ := h1
              exact Or.inr ⟨nm, l, List.mem_cons_of_mem _ hmem, hxl⟩
        · intro hx
          cases hx with
          | inl h1 =>
            rw [List.mem_cons] at h1
            cases h1 with
            | inl h1 =>
              rw [List.mem_cons]
              exact Or.inl (Sum.inl.inj h1)
            | inr h1 =>
              exact List.mem_cons_of_mem _ (hiff.2 (Or.inl h1))
          | inr h1 =>
            obtain ⟨nm, l, hmem, hxl⟩ := h1
            rw [List.mem_cons] at hmem
            cases hmem with
            | inl h2 => exact absurd h2 (by simp)
            | inr h2 =>
              exact List.mem_cons_of_mem _ (hiff.2 (Or.inr ⟨nm, l, h2, hxl⟩))
      · exact absurd h (by simp)
    | inr p =>
      obtain ⟨name, res⟩ := p
      cases res with
      | ok cm =>
        have hstep : combineCopyResults (Sum.inr (name, Except.ok cm) :: rest) =
          (match combineCopyResults rest with
           | .ok (chl, miss) => .ok (CopyChildren.cons name cm chl, miss)
           | .error e => .error e) := rfl
        rw [hstep] at h
        split at h
        · rename_i chl0 miss0 heq
          injection h with h
          have hm : miss = miss0 := (congrArg Prod.snd h).symm
          subst hm
          have hiff := ih chl0 miss heq x
          constructor
          · intro hx
            cases hiff.1 hx with
            | inl h1 => exact Or.inl (List.mem_cons_of_mem _ h1)
            | inr h1 =>
              obtain ⟨nm, l, hmem, hxl⟩ := h1
              exact Or.inr ⟨nm, l, List.mem_cons_of_mem _ hmem, hxl⟩
          · intro hx
            cases hx with
            | inl h1 =>
              rw [List.mem_cons] at h1
              cases h1 with
              | inl h2 => exact absurd h2 (by simp)
              | inr h2 => exact hiff.2 (Or.inl h2)
            | inr h1 =>
              obtain ⟨nm, l, hmem, hxl⟩ := h1
              rw [List.mem_cons] at hmem
              cases hmem with
              | inl h2 => exact absurd h2 (by simp)
              | inr h2 => exact hiff.2 (Or.inr ⟨nm, l, h2, hxl⟩)
        · exact absurd h (by simp)
      | error e0 =>
        cases e0
        case multiManifestLocalMiss l0 =>
          have hstep : combineCopyResults
              (Sum.inr (name, Except.error (FsError.multiManifestLocalMiss l0)) :: rest) =
            (match combineCopyResults rest with
             | .ok (chl, miss) => .ok (chl, l0 ++ miss)
             | .error e => .error e) := rfl
          rw [hstep] at h
          split at h
          · rename_i chl0 miss0 heq
            injection h with h
            have hm : miss = l0 ++ miss0 := (congrArg Prod.snd h).symm
            subst hm
            have hiff := ih chl0 miss0 heq x
            constructor
            · intro hx
              rw [List.mem_append] at hx
              cases hx with
              | inl hx =>
                exact Or.inr ⟨name, l0, List.mem_cons_self _ _, hx⟩
              | inr hx =>
                cases hiff.1 hx with
                | inl h1 => exact Or.inl (List.mem_cons_of_mem _ h1)
                | inr h1 =>
                  obtain ⟨nm, l, hmem, hxl⟩ := h1
                  exact Or.inr ⟨nm, l, List.mem_cons_of_mem _ hmem, hxl⟩
            · intro hx
              rw [List.mem_append]
              cases hx with
              | inl h1 =>
                rw [List.mem_cons] at h1
                cases h1 with
                | inl h2 => exact absurd h2 (by simp)
                | inr h2 => exact Or.inr (hiff.2 (Or.inl h2))
              | inr h1 =>
                obtain ⟨nm, l, hmem, hxl⟩ := h1
                rw [List.mem_cons] at hmem
                cases hmem with
                | inl h2 =>
                  have hl : l = l0 := by
                    have h3 := Sum.inr.inj h2
                    have h4 := (Prod.mk.injEq _ _ _ _).mp h3
                    have h5 := Except.error.inj h4.2
                    exact FsError.multiManifestLocalMiss.inj h5
                  exact Or.inl (hl ▸ hxl)
                | inr h2 => exact Or.inr (hiff.2 (Or.inr ⟨nm, l, h2, hxl⟩))
          · exact absurd h (by simp)
        all_goals exact Except.noConfusion h

theorem combine_ok_elem (rs : List (Sum Access (String × Except FsError CopyMap))) :
    ∀ p, combineCopyResults rs = .ok p →
      ∀ nm e, Sum.inr (nm, Except.error e) ∈ rs →
        ∃ l, e = FsError.multiManifestLocalMiss l := by
  induction rs with
  | nil =>
    intro p h nm e hmem
    exact absurd hmem (List.not_mem_nil _)
  | cons r rest ih =>
    intro p h nm e hmem
    rw [List.mem_cons] at hmem
    cases r with
    | inl ca =>
      cases hmem with
      | inl h2 => exact absurd h2 (by simp)
      | inr h2 =>
        have hstep : combineCopyResults (Sum.inl ca :: rest) =
          (match combineCopyResults rest with
           | .ok (chl, miss) => .ok (chl, ca :: miss)
           | .error e => .error e) := rfl
        rw [hstep] at h
        split at h
        · rename_i chl0 miss0 heq
          exact ih (chl0, miss0) heq nm e h2
        · exact absurd h (by simp)
    | inr q =>
      obtain ⟨name, res⟩ := q
      cases res with
      | ok cm =>
        cases hmem with
        | inl h2 => exact absurd h2 (by simp)
        | inr h2 =>
          have hstep : combineCopyResults (Sum.inr (name, Except.ok cm) :: rest) =
            (match combineCopyResults rest with
             | .ok (chl, miss) => .ok (CopyChildren.cons name cm chl, miss)
             | .error e => .error e) := rfl
          rw [hstep] at h
          split at h
          · rename_i chl0 miss0 heq
            exact ih (chl0, miss0) heq nm e h2
          · exact absurd h (by simp)
      | error e0 =>
        cases e0
        case multiManifestLocalMiss l0 =>
          cases hmem with
          | inl h2 =>
            have h3 := Except.error.inj ((Prod.mk.injEq _ _ _ _).mp (Sum.inr.inj h2)).2
            exact ⟨l0, h3⟩
          | inr h2 =>
            have hstep : combineCopyResults
                (Sum.inr (name, Except.error (FsError.multiManifestLocalMiss l0)) :: rest) =
              (match combineCopyResults rest with
               | .ok (chl, miss) => .ok (chl, l0 ++ miss)
               | .error e => .error e) := rfl
            rw [hstep] at h
            split at h
            · rename_i chl0 miss0 heq
              exact ih (chl0, miss0) heq nm e h2
            · exact absurd h (by simp)
        all_goals exact Except.noConfusion h

theorem combine_error_from (rs : List (Sum Access (String × Except FsError CopyMap))) :
    ∀ e, combineCopyResults rs = .error e →
      ∃ nm, Sum.inr (nm, Except.error e) ∈ rs := by
  induction rs with
  | nil =>
    intro e h
    exact Except.noConfusion h
  | cons r rest ih =>
    intro e h
    cases r with
    | inl ca =>
      have hstep : combineCopyResults (Sum.inl ca :: rest) =
        (match combineCopyResults rest with
         | .ok (chl, miss) => .ok (chl, ca :: miss)
         | .error e => .error e) := rfl
      rw [hstep] at h
      split at h
      · exact absurd h (by simp)
      · rename_i e0 heq
        have he := Except.error.inj h
        subst he
        obtain ⟨nm, hmem⟩ := ih e0 heq
        exact ⟨nm, List.mem_cons_of_mem _ hmem⟩
    | inr q =>
      obtain ⟨name, res⟩ := q
      cases res with
      | ok cm =>
        have hstep : combineCopyResults (Sum.inr (name, Except.ok cm) :: rest) =
          (match combineCopyResults rest with
           | .ok (chl, miss) => .ok (CopyChildren.cons name cm chl, miss)
           | .error e => .error e) := rfl
        rw [hstep] at h
        split at h
        · exact absurd h (by simp)
        · rename_i e0 heq
          have he := Except.error.inj h
          subst he
          obtain ⟨nm, hmem⟩ := ih e0 heq
          exact ⟨nm, List.mem_cons_of_mem _ hmem⟩
      | error e0 =>
        cases e0
        case multiManifestLocalMiss l0 =>
          have hstep : combineCopyResults
              (Sum.inr (name, Except.error (FsError.multiManifestLocalMiss l0)) :: rest) =
            (match combineCopyResults rest with
             | .ok (chl, miss) => .ok (chl, l0 ++ miss)
             | .error e => .error e) := rfl
          rw [hstep] at h
          split at h
          · exact absurd h (by simp)
          · rename_i e1 heq
            have he := Except.error.inj h
            subst he
            obtain ⟨nm, hmem⟩ := ih e1 heq
            exact ⟨nm, List.mem_cons_of_mem _ hmem⟩
        all_goals
          have he := Except.error.inj h
          subst he
          exact ⟨name, List.mem_cons_self _ _⟩

/-- When the per-child accumulation of `_recursive_create_copy_map`
succeeds, the collected misses are exactly the locally missing accesses of
the subtree, provided the accumulated list matches the children of the
folderish manifest pointwise. -/
theorem combine_ok_missing_iff (s : FsState) (now : Nat) (fuel : Nat) (m : Manifest)
    (hf : is_folderish_manifest m = true)
    (rs : List (Sum Access (String × Except FsError CopyMap)))
    (chl : CopyChildren) (miss : List Access)
    (hcomb : combineCopyResults rs = .ok (chl, miss))
    (IHok : ∀ a mm cm, recursive_create_copy_map s now fuel a mm = .ok cm →
      ∀ x, ¬ MissingFrom s now mm x)
    (IHmiss : ∀ a mm l, recursive_create_copy_map s now fuel a mm =
        .error (FsError.multiManifestLocalMiss l) →
      l ≠ [] ∧ (∀ x, x ∈ l ↔ MissingFrom s now mm x))
    (hinl : ∀ x, Sum.inl x ∈ rs →
      ∃ name, (name, x) ∈ m.children ∧
        get_manifest_read_only s now x = .error (FsError.manifestLocalMiss x))
    (hinr : ∀ nm res, Sum.inr (nm, res) ∈ rs →
      ∃ ca cmm, (nm, ca) ∈ m.children ∧
        get_manifest_read_only s now ca = .ok cmm ∧
        res = recursive_create_copy_map s now fuel ca cmm)
    (hbwd : ∀ name ca, (name, ca) ∈ m.children →
      Sum.inl ca ∈ rs ∨ ∃ cmm, get_manifest_read_only s now ca = .ok cmm ∧
        Sum.inr (name, recursive_create_copy_map s now fuel ca cmm) ∈ rs) :
    ∀ x, x ∈ miss ↔ MissingFrom s now m x := by
  intro x
  constructor
  · intro hx
    rcases (combine_ok_chars rs chl miss hcomb x).1 hx with h1 | ⟨nm, l, hmem, hxl⟩
    · obtain ⟨name, hcmem, hg⟩ := hinl x h1
      exact MissingFrom.base hf hcmem hg
    · obtain ⟨ca, cmm, hcmem, hg, hres⟩ := hinr nm _ hmem
      have h2 := IHmiss ca cmm l hres.symm
      exact MissingFrom.step hf hcmem hg ((h2.2 x).1 hxl)
  · intro hx
    cases hx with
    | base hf2 hcmem hg =>
      rename_i name ca
      obtain ⟨he, _, _⟩ := getRO_error_shape s now ca _ hg
      have hx2 : x = ca := FsError.manifestLocalMiss.inj he
      rcases hbwd name ca hcmem with h1 | ⟨cmm, hgok, _⟩
      · rw [hx2]
        exact (combine_ok_chars rs chl miss hcomb _).2 (Or.inl h1)
      · rw [hg] at hgok
        exact absurd hgok (by simp)
    | step hf2 hcmem hg hsub =>
      rename_i name ca cmm
      rcases hbwd name ca hcmem with h1 | ⟨cmm2, hgok2, hin⟩
      · obtain ⟨name2, hcm2, hgerr⟩ := hinl ca h1
        rw [hg] at hgerr
        exact absurd hgerr (by simp)
      · rw [hg] at hgok2
        have hc2 : cmm = cmm2 := Except.ok.inj hgok2
        subst hc2
        cases hres : recursive_create_copy_map s now fuel ca cmm with
        | ok cm0 => exact absurd hsub (IHok ca cmm cm0 hres x)
        | error e0 =>
          rw [hres] at hin
          obtain ⟨l, hl⟩ := combine_ok_elem rs (chl, miss) hcomb name e0 hin
          subst hl
          have h2 := IHmiss ca cmm l hres
          exact (combine_ok_chars rs chl miss hcomb x).2
            (Or.inr ⟨name, l, hin, (h2.2 x).2 hsub⟩)

/-- Specification of the presence-check phase `_recursive_create_copy_map`:
on success no access of the subtree is locally missing; a
`FSMultiManifestLocalMiss` outcome carries a non-empty list holding exactly
the missing accesses of the subtree; and every error outcome is either the
fuel artifact or such a multi-miss. -/
theorem createCopyMap_spec (s : FsState) (now : Nat) :
    ∀ fuel : Nat,
      (∀ a m cm, recursive_create_copy_map s now fuel a m = .ok cm →
        ∀ x, ¬ MissingFrom s now m x) ∧
      (∀ a m l, recursive_create_copy_map s now fuel a m =
          .error (FsError.multiManifestLocalMiss l) →
        l ≠ [] ∧ (∀ x, x ∈ l ↔ MissingFrom s now m x)) ∧
      (∀ a m e, recursive_create_copy_map s now fuel a m = .error e →
        e = FsError.outOfFuel ∨ ∃ l, e = FsError.multiManifestLocalMiss l) := by
  intro fuel
  induction fuel with
  | zero =>
    refine ⟨?_, ?_, ?_⟩
    · intro a m cm h
      exact Except.noConfusion h
    · intro a m l h
      exact FsError.noConfusion (Except.error.inj h)
    · intro a m e h
      exact Or.inl (Except.error.inj h).symm
  | succ fuel ih =>
    obtain ⟨IHok, IHmiss, IHshape⟩ := ih
    refine ⟨?_, ?_, ?_⟩
    · intro a m cm h
      unfold recursive_create_copy_map at h
      by_cases hf : is_folderish_manifest m = true
      · rw [if_pos hf] at h
        split at h
        · exact Except.noConfusion h
        · rename_i chl heq
          intro x hx
          refine absurd ((combine_ok_missing_iff s now fuel m hf _ chl [] heq IHok IHmiss
            ?_ ?_ ?_ x).2 hx) (List.not_mem_nil x)
          · intro y hy
            rw [List.mem_map] at hy
            obtain ⟨c, hc, hFc⟩ := hy
            cases hg : get_manifest_read_only s now c.2 with
            | error e =>
              simp only [hg] at hFc
              obtain ⟨he, _, _⟩ := getRO_error_shape s now c.2 e hg
              subst he
              have hy2 : c.2 = y := Sum.inl.inj hFc
              subst hy2
              exact ⟨c.1, by rw [Prod.mk.eta]; exact hc, hg⟩
            | ok cm0 =>
              simp only [hg] at hFc
              exact Sum.noConfusion hFc
          · intro nm res hy
            rw [List.mem_map] at hy
            obtain ⟨c, hc, hFc⟩ := hy
            cases hg : get_manifest_read_only s now c.2 with
            | error e =>
              simp only [hg] at hFc
              exact Sum.noConfusion hFc
            | ok cm0 =>
              simp only [hg] at hFc
              have h3 := (Prod.mk.injEq _ _ _ _).mp (Sum.inr.inj hFc)
              refine ⟨c.2, cm0, ?_, hg, h3.2.symm⟩
              rw [← h3.1, Prod.mk.eta]
              exact hc
          · intro name ca hcmem
            cases hg : get_manifest_read_only s now ca with
            | error e =>
              exact Or.inl (List.mem_map.mpr ⟨(name, ca), hcmem, by simp [hg]⟩)
            | ok cm0 =>
              exact Or.inr ⟨cm0, rfl, List.mem_map.mpr ⟨(name, ca), hcmem, by simp [hg]⟩⟩
        · exact Except.noConfusion h
      · rw [if_neg hf] at h
        intro x hx
        exact hf (missing_folderish s now m x hx)
    · intro a m l h
      unfold recursive_create_copy_map at h
      by_cases hf : is_folderish_manifest m = true
      · rw [if_pos hf] at h
        split at h
        · rename_i e heq
          exact absurd (Except.error.inj h) (combine_error_not_multimiss _ e heq l)
        · exact Except.noConfusion h
        · rename_i chl miss2 hne heq
          have hl2 : miss2 = l :=
            FsError.multiManifestLocalMiss.inj (Except.error.inj h)
          subst hl2
          refine ⟨hne, ?_⟩
          intro x
          refine combine_ok_missing_iff s now fuel m hf _ chl miss2 heq IHok IHmiss
            ?_ ?_ ?_ x
          · intro y hy
            rw [List.mem_map] at hy
            obtain ⟨c, hc, hFc⟩ := hy
            cases hg : get_manifest_read_only s now c.2 with
            | error e =>
              simp only [hg] at hFc
              obtain ⟨he, _, _⟩ := getRO_error_shape s now c.2 e hg
              subst he
              have hy2 : c.2 = y := Sum.inl.inj hFc
              subst hy2
              exact ⟨c.1, by rw [Prod.mk.eta]; exact hc, hg⟩
            | ok cm0 =>
              simp only [hg] at hFc
              exact Sum.noConfusion hFc
          · intro nm res hy
            rw [List.mem_map] at hy
            obtain ⟨c, hc, hFc⟩ := hy
            cases hg : get_manifest_read_only s now c.2 with
            | error e =>
              simp only [hg] at hFc
              exact Sum.noConfusion hFc
            | ok cm0 =>
              simp only [hg] at hFc
              have h3 := (Prod.mk.injEq _ _ _ _).mp (Sum.inr.inj hFc)
              refine ⟨c.2, cm0, ?_, hg, h3.2.symm⟩
              rw [← h3.1, Prod.mk.eta]
              exact hc
          · intro name ca hcmem
            cases hg : get_manifest_read_only s now ca with
            | error e =>
              exact Or.inl (List.mem_map.mpr ⟨(name, ca), hcmem, by simp [hg]⟩)
            | ok cm0 =>
              exact Or.inr ⟨cm0, rfl, List.mem_map.mpr ⟨(name, ca), hcmem, by simp [hg]⟩⟩
      · rw [if_neg hf] at h
        exact Except.noConfusion h
    · intro a m e h
      unfold recursive_create_copy_map at h
      by_cases hf : is_folderish_manifest m = true
      · rw [if_pos hf] at h
        split at h
        · rename_i e0 heq
          have he : e0 = e := Except.error.inj h
          subst he
          obtain ⟨nm, hmem⟩ := combine_error_from _ e0 heq
          rw [List.mem_map] at hmem
          obtain ⟨c, hc, hFc⟩ := hmem
          cases hg : get_manifest_read_only s now c.2 with
          | error e1 =>
            simp only [hg] at hFc
            exact Sum.noConfusion hFc
          | ok cm0 =>
            simp only [hg] at hFc
            have h3 := (Prod.mk.injEq _ _ _ _).mp (Sum.inr.inj hFc)
            exact IHshape c.2 cm0 e0 h3.2
        · exact Except.noConfusion h
        · rename_i chl miss2 hne heq
          exact Or.inr ⟨miss2, (Except.error.inj h).symm⟩
      · rw [if_neg hf] at h
        exact Except.noConfusion h

/-- C2: a `move`/`copy` run that reaches `_recursive_manifest_copy` performs
the presence-check phase first: if some access of the source subtree is
locally absent (and the fuel artifact of the embedding does not fire), the
operation fails with a single `FSMultiManifestLocalMiss` carrying exactly
the missing accesses of the subtree — an error result carries no successor
state, so nothing is written — and the copy phase (the only writer) runs
exactly when the presence check found the whole subtree locally present. -/
theorem c2_recursive_copy_two_phase (s : FsState) (now fuel : Nat) (a : Access)
    (m : Manifest)
    (hfuel : recursive_create_copy_map s now fuel a m ≠ .error FsError.outOfFuel) :
    ((∃ x, MissingFrom s now m x) →
      ∃ l, recursive_manifest_copy s now fuel a m =
          .error (FsError.multiManifestLocalMiss l) ∧ l ≠ [] ∧
        (∀ y, y ∈ l ↔ MissingFrom s now m y)) ∧
    (∀ res, recursive_manifest_copy s now fuel a m = .ok res →
      (∀ x, ¬ MissingFrom s now m x) ∧
      ∃ cm, recursive_create_copy_map s now fuel a m = .ok cm ∧
        res = recursive_process_copy_map now s cm) := by
  obtain ⟨hok, hmiss, hshape⟩ := createCopyMap_spec s now fuel
  constructor
  · rintro ⟨x, hx⟩
    cases hres : recursive_create_copy_map s now fuel a m with
    | ok cm => exact absurd hx (hok a m cm hres x)
    | error e =>
      rcases hshape a m e hres with he | ⟨l, he⟩
      · subst he
        exact absurd hres hfuel
      · subst he
        have h2 := hmiss a m l hres
        refine ⟨l, ?_, h2.1, h2.2⟩
        unfold recursive_manifest_copy
        rw [hres]
  · intro res h
    unfold recursive_manifest_copy at h
    split at h
    · exact Except.noConfusion h
    · rename_i cm hcm
      exact ⟨hok a m cm hcm, cm, hcm, (Except.ok.inj h).symm⟩

/-- C2 witness: in the concrete state `exSMiss` the presence check below
the workspace `w` finds the dangling file access `⟨2⟩` and reports it in
one `FSMultiManifestLocalMiss`. -/
theorem c2_recursive_copy_two_phase_witness :
    ∃ l, recursive_manifest_copy exSMiss 9 3 ⟨1⟩ exWsM =
        .error (FsError.multiManifestLocalMiss l) ∧ l ≠ [] ∧
      (∀ y, y ∈ l ↔ MissingFrom exSMiss 9 exWsM y) :=
  (c2_recursive_copy_two_phase exSMiss 9 3 ⟨1⟩ exWsM (by decide)).1
    ⟨⟨2⟩, @MissingFrom.base exSMiss 9 exWsM "a" ⟨2⟩ ⟨2⟩ (by decide) (by decide) (by decide)⟩

theorem file_not_folderish (m : Manifest) (h : is_file_manifest m = true) :
    is_folderish_manifest m = false := by
  unfold is_file_manifest at h
  unfold is_folderish_manifest
  split at h
  · rename_i heq
    rw [heq]
  · exact Bool.noConfusion h

theorem not_folderish_of_file (m : Manifest) (h : is_file_manifest m = true) :
    ¬ (is_folderish_manifest m = true) := by
  rw [file_not_folderish m h]
  decide

mutual
theorem process_map_author (now : Nat) : ∀ (s : FsState) (cm : CopyMap),
    (recursive_process_copy_map now s cm).2.localAuthor = s.localAuthor
  | s, CopyMap.node a m children => by
    unfold recursive_process_copy_map
    dsimp only []
    split
    · rfl
    · exact process_children_author now { s with nextId := s.nextId + 1 } children
theorem process_children_author (now : Nat) : ∀ (s : FsState) (cc : CopyChildren),
    (recursive_process_children now s cc).2.localAuthor = s.localAuthor
  | s, CopyChildren.nil => rfl
  | s, CopyChildren.cons name cm rest => by
    have h1 := process_map_author now s cm
    have h2 := process_children_author now (recursive_process_copy_map now s cm).2 rest
    unfold recursive_process_children
    dsimp only []
    rw [h2, h1]
end

mutual
theorem process_map_file_copy (now : Nat) : ∀ (s : FsState) (cm : CopyMap)
    (mf : Manifest), FileNodeIn cm mf →
    ∃ b, s.nextId ≤ b ∧ b < (recursive_process_copy_map now s cm).2.nextId ∧
      sget (recursive_process_copy_map now s cm).2.store b =
        some (LocalFileManifest s.localAuthor now mf.size mf.blocks mf.dirtyBlocks)
  | s, CopyMap.node a m children, mf, hin => by
    unfold recursive_process_copy_map
    dsimp only []
    cases hin with
    | here _ _ _ hfile =>
      rw [if_pos hfile]
      exact ⟨s.nextId, le_refl _, Nat.lt_succ_self _, sget_set_self _ ⟨s.nextId⟩ _⟩
    | there _ _ _ _ hnotfile hchild =>
      have hnf : ¬ (is_file_manifest m = true) := by simp [hnotfile]
      rw [if_neg hnf]
      obtain ⟨b, hb1, hb2, hb3⟩ :=
        process_children_file_copy now { s with nextId := s.nextId + 1 } children mf hchild
      refine ⟨b, le_trans (Nat.le_succ _) hb1, hb2, ?_⟩
      rw [sget_set_ne _ _ _ _ (Nat.ne_of_lt (Nat.lt_of_succ_le hb1))]
      exact hb3
theorem process_children_file_copy (now : Nat) : ∀ (s : FsState) (cc : CopyChildren)
    (mf : Manifest), FileChildIn cc mf →
    ∃ b, s.nextId ≤ b ∧ b < (recursive_process_children now s cc).2.nextId ∧
      sget (recursive_process_children now s cc).2.store b =
        some (LocalFileManifest s.localAuthor now mf.size mf.blocks mf.dirtyBlocks)
  | s, CopyChildren.nil, mf, hin => nomatch hin
  | s, CopyChildren.cons name cm rest, mf, hin => by
    cases hin with
    | head _ _ _ _ hnode =>
      obtain ⟨b, hb1, hb2, hb3⟩ := process_map_file_copy now s cm mf hnode
      obtain ⟨hle2, hfr2, _⟩ :=
        process_children_facts now (recursive_process_copy_map now s cm).2 rest
      unfold recursive_process_children
      dsimp only []
      exact ⟨b, hb1, lt_of_lt_of_le hb2 hle2, by rw [hfr2 b hb2]; exact hb3⟩
    | tail _ _ _ _ htail =>
      obtain ⟨hle1, _, _⟩ := process_map_facts now s cm
      obtain ⟨b, hb1, hb2, hb3⟩ :=
        process_children_file_copy now (recursive_process_copy_map now s cm).2 rest mf htail
      unfold recursive_process_children
      dsimp only []
      refine ⟨b, le_trans hle1 hb1, hb2, ?_⟩
      rw [process_map_author now s cm] at hb3
      exact hb3
end

theorem combine_ok_chl_mem (rs : List (Sum Access (String × Except FsError CopyMap))) :
    ∀ chl miss, combineCopyResults rs = .ok (chl, miss) →
      ∀ nm cm, Sum.inr (nm, Except.ok cm) ∈ rs → ChlMem chl nm cm := by
  induction rs with
  | nil =>
    intro chl miss h nm cm hmem
    exact absurd hmem (List.not_mem_nil _)
  | cons r rest ih =>
    intro chl miss h nm cm hmem
    rw [List.mem_cons] at hmem
    cases r with
    | inl ca =>
      cases hmem with
      | inl h2 => exact absurd h2 (by simp)
      | inr h2 =>
        have hstep : combineCopyResults (Sum.inl ca :: rest) =
          (match combineCopyResults rest with
           | .ok (chl, miss) => .ok (chl, ca :: miss)
           | .error e => .error e) := rfl
        rw [hstep] at h
        split at h
        · rename_i chl0 miss0 heq
          injection h with h
          have hc : chl = chl0 := (congrArg Prod.fst h).symm
          rw [hc]
          exact ih chl0 miss0 heq nm cm h2
        · exact absurd h (by simp)
    | inr q =>
      obtain ⟨name, res⟩ := q
      cases res with
      | ok cm0 =>
        have hstep : combineCopyResults (Sum.inr (name, Except.ok cm0) :: rest) =
          (match combineCopyResults rest with
           | .ok (chl, miss) => .ok (CopyChildren.cons name cm0 chl, miss)
           | .error e => .error e) := rfl
        rw [hstep] at h
        split at h
        · rename_i chl0 miss0 heq
          injection h with h
          have hc : chl = CopyChildren.cons name cm0 chl0 := (congrArg Prod.fst h).symm
          rw [hc]
          cases hmem with
          | inl h2 =>
            have h3 := (Prod.mk.injEq _ _ _ _).mp (Sum.inr.inj h2)
            have h4 : nm = name := h3.1
            have h5 : cm = cm0 := Except.ok.inj h3.2
            rw [h4, h5]
            exact ChlMem.head _ _ _
          | inr h2 => exact ChlMem.tail _ _ _ _ _ (ih chl0 miss0 heq nm cm h2)
        · exact absurd h (by simp)
      | error e0 =>
        cases e0
        case multiManifestLocalMiss l0 =>
          cases hmem with
          | inl h2 => exact absurd h2 (by simp)
          | inr h2 =>
            have hstep : combineCopyResults
                (Sum.inr (name, Except.error (FsError.multiManifestLocalMiss l0)) :: rest) =
              (match combineCopyResults rest with
               | .ok (chl, miss) => .ok (chl, l0 ++ miss)
               | .error e => .error e) := rfl
            rw [hstep] at h
            split at h
            · rename_i chl0 miss0 heq
              injection h with h
              have hc : chl = chl0 := (congrArg Prod.fst h).symm
              rw [hc]
              exact ih chl0 miss0 heq nm cm h2
            · exact absurd h (by simp)
        all_goals exact Except.noConfusion h

theorem chlmem_filechild (chl : CopyChildren) (nm : String) (cm : CopyMap)
    (mf : Manifest) (h : ChlMem chl nm cm) (hnode : FileNodeIn cm mf) :
    FileChildIn chl mf := by
  induction h with
  | head name cm0 rest => exact FileChildIn.head _ _ _ _ hnode
  | tail name name0 cm1 cm0 rest hmem ihx => exact FileChildIn.tail _ _ _ _ (ihx hnode)

/-- Completeness of the presence-check phase: the copy map built by a
successful `_recursive_create_copy_map` contains every file manifest
reachable in the subtree. -/
theorem createCopyMap_files (s : FsState) (now : Nat) :
    ∀ fuel a m cm, recursive_create_copy_map s now fuel a m = .ok cm →
      ∀ mf, FileReach s now m mf → FileNodeIn cm mf := by
  intro fuel
  induction fuel with
  | zero =>
    intro a m cm h
    exact Except.noConfusion h
  | succ fuel ih =>
    intro a m cm h mf hreach
    unfold recursive_create_copy_map at h
    cases hreach with
    | refl hfile =>
      rw [if_neg (not_folderish_of_file _ hfile)] at h
      rw [← Except.ok.inj h]
      exact FileNodeIn.here _ _ _ hfile
    | step hfold hcmem hg hsub =>
      rename_i name ca cmm
      rw [if_pos hfold] at h
      split at h
      · exact Except.noConfusion h
      · rename_i chl heq
        cases hres : recursive_create_copy_map s now fuel ca cmm with
        | error e0 =>
          obtain ⟨l0, hl0⟩ := combine_ok_elem _ _ heq name e0
            (List.mem_map.mpr ⟨(name, ca), hcmem, by simp [hg, hres]⟩)
          subst hl0
          obtain ⟨x0, hx0⟩ :=
            List.exists_mem_of_ne_nil l0
              ((createCopyMap_spec s now fuel).2.1 ca cmm l0 hres).1
          exact absurd ((combine_ok_chars _ chl [] heq x0).2
              (Or.inr ⟨name, l0,
                List.mem_map.mpr ⟨(name, ca), hcmem, by simp [hg, hres]⟩, hx0⟩))
            (List.not_mem_nil x0)
        | ok cm0 =>
          have hnode := ih ca cmm cm0 hres mf hsub
          have hchl : ChlMem chl name cm0 :=
            combine_ok_chl_mem _ chl [] heq name cm0
              (List.mem_map.mpr ⟨(name, ca), hcmem, by simp [hg, hres]⟩)
          rw [← Except.ok.inj h]
          exact FileNodeIn.there _ _ _ _ (folderish_not_file _ hfold)
            (chlmem_filechild _ _ _ _ hchl hnode)
      · exact Except.noConfusion h

/-- C7: every file manifest reachable (through locally present folderish
manifests) in the subtree handed to `_recursive_manifest_copy` is copied
verbatim by the copy phase: some entry id allocated during the operation
maps, in the result state, to a manifest of file kind with the same
`size`, `blocks` and `dirty_blocks`, authored by the local device, with
`is_placeholder = true`, `need_sync = true` and `base_version = 0`. -/
theorem c7_file_copies_verbatim (s : FsState) (now fuel : Nat) (a : Access)
    (m : Manifest) (res : Access × FsState)
    (hok : recursive_manifest_copy s now fuel a m = .ok res)
    (mf : Manifest) (hreach : FileReach s now m mf) :
    ∃ b m2, s.nextId ≤ b ∧ b < res.2.nextId ∧ sget res.2.store b = some m2 ∧
      m2.kind = ManifestKind.file ∧ m2.size = mf.size ∧ m2.blocks = mf.blocks ∧
      m2.dirtyBlocks = mf.dirtyBlocks ∧ m2.author = s.localAuthor ∧
      m2.isPlaceholder = true ∧ m2.needSync = true ∧ m2.baseVersion = 0 := by
  unfold recursive_manifest_copy at hok
  split at hok
  · exact Except.noConfusion hok
  · rename_i cm hcm
    have hres : res = recursive_process_copy_map now s cm := (Except.ok.inj hok).symm
    subst hres
    have hnode := createCopyMap_files s now fuel a m cm hcm mf hreach
    obtain ⟨b, hb1, hb2, hb3⟩ := process_map_file_copy now s cm mf hnode
    exact ⟨b, LocalFileManifest s.localAuthor now mf.size mf.blocks mf.dirtyBlocks,
      hb1, hb2, hb3, rfl, rfl, rfl, rfl, rfl, rfl, rfl, rfl⟩

/-- C7 witness: copying the subtree of the workspace `w` of the concrete
state `exS` writes a fresh verbatim copy of the file manifest of `/w/a`. -/
theorem c7_file_copies_verbatim_witness :
    ∃ b m2, exS.nextId ≤ b ∧
      b < (match recursive_manifest_copy exS 9 3 ⟨1⟩ exWsM with
        | .ok r => r
        | .error _ => (⟨0⟩, exS)).2.nextId ∧
      sget (match recursive_manifest_copy exS 9 3 ⟨1⟩ exWsM with
        | .ok r => r
        | .error _ => (⟨0⟩, exS)).2.store b = some m2 ∧
      m2.kind = ManifestKind.file ∧ m2.size = exFileM.size ∧
      m2.blocks = exFileM.blocks ∧ m2.dirtyBlocks = exFileM.dirtyBlocks ∧
      m2.author = exS.localAuthor ∧ m2.isPlaceholder = true ∧ m2.needSync = true ∧
      m2.baseVersion = 0 :=
  c7_file_copies_verbatim exS 9 3 ⟨1⟩ exWsM
    (match recursive_manifest_copy exS 9 3 ⟨1⟩ exWsM with
      | .ok r => r
      | .error _ => (⟨0⟩, exS))
    (by decide) exFileM
    (@FileReach.step exS 9 exWsM "a" ⟨2⟩ exFileM exFileM (by decide) (by decide)
      (by decide) (FileReach.refl (by decide)))

/-- C1 amended witness: `touch("/w/d2/x")` on the concrete state `exS2`
marks the parent folder `d2`. -/
theorem c1_mutation_marks_parent_amended_witness :
    ∃ pm2 : Manifest,
      sget (match touch exS2 7 ["w", "d2", "x"] with
        | .ok s => s
        | .error _ => exS2).store 4 = some pm2 ∧ pm2.needSync = true ∧
      pm2.updated = 7 ∧ (exD2M.updated ≤ 7 → exD2M.updated ≤ pm2.updated) :=
  c1_mutation_marks_parent_amended.1 exS2 7 ["w", "d2", "x"]
    (match touch exS2 7 ["w", "d2", "x"] with
      | .ok s => s
      | .error _ => exS2) ⟨4⟩ exD2M (wfCheck_sound exS2 (by decide)) (by decide) (by decide)

end Parsec
